import Mathlib

/-!
# syncstamp: a shallow embedding of `main.go`

The program indexes a source directory tree by (upper-cased base name, size),
then walks a destination tree and, for each destination file, looks for a
source file with the same content (MD5 digest) but a different modification
time at whole-second resolution.

Modelling conventions.

* `*File` pointers are natural numbers into a heap `Mem.files`; the global
  `openCount` lives in the same record.  `Mem.opens` is a ghost log of every
  path passed to `os.Open`, kept only so that "no file is opened" can be stated.
* Library and platform behaviour (MD5, `strings.ToUpper`, `os.Open`,
  `filepath.EvalSymlinks`, what `os.Lstat` and directory reads show, whether
  `os.Chtimes` succeeds) is a parameter, `World`.  The calls of `os.Chtimes`
  are recorded; `diskTimes` reads off the times a file has after them.
* `filepath.Base` is embedded for slash-separated paths without volume names.
* Counters are `Nat`: Go `int` overflow would need 2^63 files.
-/

namespace Syncstamp

/-! ## Data model -/

/-- Go `error` values seen by the program: the sentinel `filepath.SkipDir`,
the usage error built by `mains`, and errors coming from the operating system. -/
inductive Err where
  | SkipDir
  | usage
  | os (msg : String)
  deriving DecidableEq, Repr

/-- A `time.Time` instant: whole seconds since the zero time and the
nanosecond offset inside that second. -/
structure Time where
  sec : Int
  nsec : Nat
  deriving DecidableEq, Repr

/-- `t.Truncate(time.Second)`: round down to a multiple of one second. -/
def Time.TruncateSecond (t : Time) : Time :=
  { sec := t.sec, nsec := 0 }

/-- `t.Equal(u)`: the two values denote the same instant. -/
def Time.Equal (t u : Time) : Bool :=
  decide (t.sec = u.sec) && decide (t.nsec = u.nsec)

/-- The part of `os.FileInfo` the program reads. -/
structure FileInfo where
  size : Int
  modTime : Time
  isDir : Bool
  deriving DecidableEq, Repr

/-- Go `type File struct { os.FileInfo; Path string; hash []byte }`;
`hash = none` is the nil slice. -/
structure File where
  info : FileInfo
  Path : String
  hash : Option (List Nat)
  deriving DecidableEq, Repr

/-- Go `type keyT struct { Name string; Size int64 }`. -/
structure keyT where
  Name : String
  Size : Int
  deriving DecidableEq, Repr

/-- An opened file: its complete byte content and, when reading fails,
the number of bytes delivered before the failure. -/
structure Handle where
  content : List Nat
  readErr : Option Nat
  deriving DecidableEq, Repr

mutual
/-- What `os.Lstat` reports for a path, together with what reading the
directory shows when the entry is a directory. -/
inductive Node where
  | bad (err : String)
  | ok (info : FileInfo) (readErr : Option String) (entries : Entries)
/-- The sorted entries of a directory; each carries the file name
`filepath.Join(dir, name)` that `filepath.Walk` builds for it. -/
inductive Entries where
  | nil
  | cons (filename : String) (node : Node) (rest : Entries)
end

/-- Library and platform behaviour the program depends on.  `osChtimes path
atime mtime` is the error of that call, `none` when it succeeds. -/
structure World where
  md5 : List Nat → List Nat
  ToUpper : String → String
  osOpen : String → Except String Handle
  EvalSymlinks : String → Except String String
  Lstat : String → Node
  osChtimes : String → Time → Time → Option String

/-- The heap of `File` records and the package-level variable `openCount`. -/
structure Mem where
  files : Nat → File
  next : Nat
  openCount : Nat
  opens : List String

/-- Store a record at address `p`. -/
def Mem.write (m : Mem) (p : Nat) (f : File) : Mem :=
  { m with files := fun q => if q = p then f else m.files q }

/-- Go `&File{...}`: allocate a fresh record. -/
def Mem.alloc (m : Mem) (f : File) : Nat × Mem :=
  (m.next, { (m.write m.next f) with next := m.next + 1 })

/-! ## Content fingerprint -/

/-- The bytes `io.Copy(h, fd)` feeds to the hash before it stops. -/
def ioCopy (fd : Handle) : List Nat :=
  match fd.readErr with
  | none => fd.content
  | some k => fd.content.take k

/-- Go `func hash(path string) ([]byte, error)`.  The result of `io.Copy`
is discarded by the source. -/
def hash (w : World) (path : String) (m : Mem) : Except Err (List Nat) × Mem :=
  let m1 := { m with opens := m.opens ++ [path] }
  match w.osOpen path with
  | .error e => (.error (.os e), m1)
  | .ok fd => (.ok (w.md5 (ioCopy fd)), { m1 with openCount := m1.openCount + 1 })

/-- Go `func (f *File) Hash() ([]byte, error)`. -/
def File.Hash (w : World) (f : Nat) (m : Mem) : Except Err (List Nat) × Mem :=
  match (m.files f).hash with
  | some h => (.ok h, m)
  | none =>
    match Syncstamp.hash w (m.files f).Path m with
    | (.error e, m1) => (.error e, m1.write f { (m1.files f) with hash := none })
    | (.ok d, m1) => (.ok d, m1.write f { (m1.files f) with hash := some d })

/-- Go `func (this *File) Equal(other *File) (bool, error)`. -/
def File.Equal (w : World) (this other : Nat) (m : Mem) : Except Err Bool × Mem :=
  match File.Hash w this m with
  | (.error e, m1) => (.error e, m1)
  | (.ok hash1, m1) =>
    match File.Hash w other m1 with
    | (.error e, m2) => (.error e, m2)
    | (.ok hash2, m2) => (.ok (decide (hash1 = hash2)), m2)

/-- Go `func (this *File) Sametime(other *File) bool`. -/
def File.Sametime (this other : File) : Bool :=
  let time1 := this.info.modTime.TruncateSecond
  let time2 := other.info.modTime.TruncateSecond
  time1.Equal time2

/-- Go `func findSameFileButTimeDiff(srcFiles []*File, dstFile *File) (*File, error)`. -/
def findSameFileButTimeDiff (w : World) :
    List Nat → Nat → Mem → Except Err (Option Nat) × Mem
  | [], _, m => (.ok none, m)
  | srcFile :: rest, dstFile, m =>
    if File.Sametime (m.files srcFile) (m.files dstFile) then
      findSameFileButTimeDiff w rest dstFile m
    else
      match File.Equal w srcFile dstFile m with
      | (.error e, m1) => (.error e, m1)
      | (.ok true, m1) => (.ok (some srcFile), m1)
      | (.ok false, m1) => findSameFileButTimeDiff w rest dstFile m1

/-! ## Tree walking -/

/-- Go `filepath.Base` for slash-separated paths: strip trailing slashes,
keep what follows the last slash; the empty path gives ".", a path of
slashes only gives "/". -/
def Base (path : String) : String :=
  if path = "" then "."
  else
    let stripped := (path.data.reverse.dropWhile (fun c => c == '/')).reverse
    let last := (stripped.reverse.takeWhile (fun c => c != '/')).reverse
    if last = [] then "/" else String.mk last

/-- The arguments `(info, err)` with which `filepath.Walk` calls its function:
after a failed `Lstat` (`info` is nil), or with the entry and the error of
reading it as a directory, if any. -/
inductive Visit where
  | lstatErr (err : String)
  | entry (info : FileInfo) (err : Option String)

/-- Go `filepath.WalkFunc`, over the state the function may change. -/
abbrev WalkFunc (σ : Type) := String → Visit → σ → Option Err × σ

mutual
/-- Go `filepath.walk` preceded by the `Lstat` its callers perform: after a
failed `Lstat` the function is called with the error; a non-directory is
passed to the function; a directory is read first, then passed to the function
together with the read error, and descended into when both errors are nil
(the order of current Go releases). -/
def walkNode {σ : Type} (fn : WalkFunc σ) (path : String) : Node → σ → Option Err × σ
  | .bad e, s => fn path (.lstatErr e) s
  | .ok info readErr entries, s =>
    if !info.isDir then fn path (.entry info none) s
    else
      match fn path (.entry info readErr) s with
      | (some err1, s1) => (some err1, s1)
      | (none, s1) =>
        if readErr.isSome then (none, s1) else walkEntries fn entries s1
/-- The loop of `filepath.walk` over the names of a directory: an error other
than `SkipDir` stops the walk; `SkipDir` from a directory (or after a failed
`Lstat`) skips that entry, `SkipDir` from a non-directory ends the loop. -/
def walkEntries {σ : Type} (fn : WalkFunc σ) : Entries → σ → Option Err × σ
  | .nil, s => (none, s)
  | .cons filename node rest, s =>
    match walkNode fn filename node s with
    | (none, s1) => walkEntries fn rest s1
    | (some err, s1) =>
      match node with
      | .bad _ =>
        if err ≠ Err.SkipDir then (some err, s1) else walkEntries fn rest s1
      | .ok info _ _ =>
        if !info.isDir || err ≠ Err.SkipDir then (some err, s1)
        else walkEntries fn rest s1
end

/-- Go `filepath.Walk(root, fn)`: `SkipDir` reaching the top is not an error. -/
def filepathWalk {σ : Type} (w : World) (root : String) (fn : WalkFunc σ) (s : σ) :
    Option Err × σ :=
  match walkNode fn root (w.Lstat root) s with
  | (some Err.SkipDir, s1) => (none, s1)
  | r => r

/-- The type of the callbacks handed to `walk`: they receive the key and the
address of the new record, and may change the heap and their captured
variables. -/
abbrev Callback (σ : Type) := keyT → Nat → Mem × σ → Option Err × (Mem × σ)

/-- The function literal inside Go `walk`. -/
def walkFunc {σ : Type} (w : World) (callback : Callback σ) : WalkFunc (Mem × σ) :=
  fun path v s =>
    match v with
    | .lstatErr e => (some (.os e), s)
    | .entry _ (some e) => (some (.os e), s)
    | .entry file1 none =>
      if file1.isDir then
        if (Base path).data.head? = some '.' then (some .SkipDir, s) else (none, s)
      else
        let key : keyT := { Name := w.ToUpper (Base path), Size := file1.size }
        let (val, m1) := s.1.alloc { Path := path, info := file1, hash := none }
        callback key val (m1, s.2)

/-- Go `func walk(root string, callback func(*keyT, *File) error) error`. -/
def walk {σ : Type} (w : World) (root : String) (callback : Callback σ) (s : Mem × σ) :
    Option Err × (Mem × σ) :=
  let root1 := match w.EvalSymlinks root with
    | .ok path => path
    | .error _ => root
  filepathWalk w root1 (walkFunc w callback) s

/-- Go `map[keyT][]*File`; `none` is an absent key. -/
abbrev Index := keyT → Option (List Nat)

/-- Go `files[*key] = append(files[*key], value)`. -/
def Index.append (files : Index) (key : keyT) (value : Nat) : Index :=
  fun k => if k = key then some ((files key).getD [] ++ [value]) else files k

/-- The callback of `getTree`; the captured variables are `files` and `count`. -/
def getTreeCallback : Callback (Index × Nat) :=
  fun key value s => (none, (s.1, (s.2.1.append key value, s.2.2 + 1)))

/-- Go `func getTree(root string) (map[keyT][]*File, int, error)`. -/
def getTree (w : World) (root : String) (m : Mem) : (Index × Nat × Option Err) × Mem :=
  let files : Index := fun _ => none
  let count := 0
  match walk w root getTreeCallback (m, (files, count)) with
  | (err, (m1, (files1, count1))) => ((files1, count1, err), m1)

/-! ## Reconciliation driver -/

/-- The command-line flags `-batch` and `-update`. -/
structure Flags where
  flagBatch : Bool
  flagUpdate : Bool
  deriving DecidableEq, Repr

/-- What the scan callback writes to standard output, one value per print
statement: the `touch -r` line, the source line, the marker `->` or `!=`, and
the destination line.  Time formatting is not modelled. -/
inductive Event where
  | touchLine (src dst : String)
  | srcLine (t : Time) (path : String)
  | arrow
  | differs
  | dstLine (t : Time) (path : String)
  deriving DecidableEq, Repr

/-- Lines written to standard error. -/
inductive Diag where
  | read (n : Nat) (root : String)
  | compared (n : Nat) (root : String)
  | touched (n : Nat) (root : String)
  | opened (n : Nat)
  | fatal (e : Err)
  deriving DecidableEq, Repr

/-- The variables captured by the scan callback of `mains` (`dstCount`,
`updCount`), standard output, and the calls `os.Chtimes(path, atime, mtime)`
made so far. -/
structure Scan where
  dstCount : Nat
  updCount : Nat
  stdout : List Event
  chtimes : List (String × Time × Time)
  deriving DecidableEq, Repr

/-- The callback `mains` hands to `walk` for the destination tree. -/
def scanCallback (w : World) (fl : Flags) (source : Index) : Callback Scan :=
  fun key val s =>
    let r : Scan := { s.2 with dstCount := s.2.dstCount + 1 }
    match source key with
    | none => (none, (s.1, r))
    | some srcFiles =>
      match findSameFileButTimeDiff w srcFiles val s.1 with
      | (.error err, m1) => (some err, (m1, r))
      | (.ok none, m1) => (none, (m1, r))
      | (.ok (some matchSrcFile), m1) =>
        let src := m1.files matchSrcFile
        let dst := m1.files val
        if fl.flagBatch then
          (none, (m1, { r with stdout := r.stdout ++ [.touchLine src.Path dst.Path] }))
        else
          let r1 : Scan := { r with stdout := r.stdout ++ [.srcLine src.info.modTime src.Path] }
          let r2 : Scan :=
            { r1 with stdout := r1.stdout ++ [if fl.flagUpdate then .arrow else .differs] }
          let r3 : Scan := { r2 with stdout := r2.stdout ++ [.dstLine dst.info.modTime dst.Path] }
          if fl.flagUpdate then
            (none, (m1, { r3 with
              chtimes := r3.chtimes ++ [(dst.Path, src.info.modTime, src.info.modTime)],
              updCount := r3.updCount + 1 }))
          else (none, (m1, r3))

/-- The result of a run of `mains`: the error returned, the final heap, the
scan variables with the output, and standard error. -/
structure Outcome where
  err : Option Err
  mem : Mem
  scan : Scan
  stderr : List Diag

/-- Go `func mains(args []string) error`. -/
def mains (w : World) (fl : Flags) (args : List String) (m : Mem) : Outcome :=
  let scan0 : Scan := { dstCount := 0, updCount := 0, stdout := [], chtimes := [] }
  match args with
  | srcRoot :: dstRoot :: _ =>
    match getTree w srcRoot m with
    | ((_, _, some err), m1) => { err := some err, mem := m1, scan := scan0, stderr := [] }
    | ((source, srcCount, none), m1) =>
      match walk w dstRoot (scanCallback w fl source) (m1, scan0) with
      | (err, (m2, r)) =>
        { err := err, mem := m2, scan := r,
          stderr := [.read srcCount srcRoot, .compared r.dstCount dstRoot]
            ++ (if r.updCount > 0 then [.touched r.updCount dstRoot] else [])
            ++ [.opened m2.openCount] }
  | _ => { err := some .usage, mem := m, scan := scan0, stderr := [] }

/-- Go `func main()`: the exit status and the run, with the error message
appended to standard error when `mains` fails. -/
def main (w : World) (fl : Flags) (args : List String) (m : Mem) : Nat × Outcome :=
  let o := mains w fl args m
  match o.err with
  | some e => (1, { o with stderr := o.stderr ++ [.fatal e] })
  | none => (0, o)

/-- The heap at program start: no record allocated, `openCount` zero. -/
def Mem.init : Mem :=
  { files := fun _ => { info := { size := 0, modTime := { sec := 0, nsec := 0 }, isDir := false },
                        Path := "", hash := none },
    next := 0, openCount := 0, opens := [] }

/-! ## Specification-side notions -/

/-- The digest a call of `Hash` yields for a record: the cached one if there
is one, otherwise the digest of what `hash` reads from the path. -/
def fingerprint (w : World) (f : File) : Except Err (List Nat) :=
  match f.hash with
  | some h => .ok h
  | none =>
    match w.osOpen f.Path with
    | .error e => .error (.os e)
    | .ok fd => .ok (w.md5 (ioCopy fd))

/-- Both fingerprints can be computed and are byte-equal. -/
def sameDigest (w : World) (a b : File) : Bool :=
  match fingerprint w a, fingerprint w b with
  | .ok h1, .ok h2 => decide (h1 = h2)
  | _, _ => false

/-- The candidate at `p` differs from the target in whole-second modification
time and has the same fingerprint. -/
def isMatch (w : World) (m : Mem) (dstFile p : Nat) : Bool :=
  !File.Sametime (m.files p) (m.files dstFile) && sameDigest w (m.files p) (m.files dstFile)

/-- The result of the matcher read off the initial heap: candidates in order,
same-second candidates skipped, the first fingerprint failure returned. -/
def firstMatch (w : World) (m : Mem) (dstFile : Nat) : List Nat → Except Err (Option Nat)
  | [] => .ok none
  | p :: rest =>
    if File.Sametime (m.files p) (m.files dstFile) then firstMatch w m dstFile rest
    else
      match fingerprint w (m.files p) with
      | .error e => .error e
      | .ok h1 =>
        match fingerprint w (m.files dstFile) with
        | .error e => .error e
        | .ok h2 => if h1 = h2 then .ok (some p) else firstMatch w m dstFile rest

/-- The heap `m1` holds the same records as `m` up to cached digests, and
every record has the same fingerprint in both. -/
def Mem.agree (w : World) (m m1 : Mem) : Prop :=
  m1.next = m.next ∧
  ∀ q, (m1.files q).info = (m.files q).info ∧ (m1.files q).Path = (m.files q).Path ∧
    fingerprint w (m1.files q) = fingerprint w (m.files q)

/-- A sequence of calls of `Hash`, on the records `ps` in order (results
discarded): any interleaving of fingerprint requests during a run. -/
def hashAll (w : World) : List Nat → Mem → Mem
  | [], m => m
  | p :: ps, m => hashAll w ps (File.Hash w p m).2

/-- The total by which the calls of `Hash` made on record `f`, within the
sequence of calls `ps`, raise `openCount`. -/
def opensBy (w : World) (f : Nat) : List Nat → Mem → Nat
  | [], _ => 0
  | p :: ps, m =>
    (if p = f then (File.Hash w p m).2.openCount - m.openCount else 0)
      + opensBy w f ps (File.Hash w p m).2

/-! ## Concrete worlds and heaps for evaluation -/

/-- A heap holding the given records at addresses 0, 1, 2, ... -/
def Mem.ofList (fs : List File) : Mem :=
  { Mem.init with files := fun q => fs.getD q (Mem.init.files q), next := fs.length }

/-- A non-directory `FileInfo`. -/
def fileInfo (size sec : Int) (nsec : Nat) : FileInfo :=
  { size := size, modTime := { sec := sec, nsec := nsec }, isDir := false }

/-- A directory `FileInfo`. -/
def dirInfo : FileInfo :=
  { size := 0, modTime := { sec := 0, nsec := 0 }, isDir := true }

/-- A record not hashed yet. -/
def freshFile (path : String) (size sec : Int) (nsec : Nat) : File :=
  { info := fileInfo size sec nsec, Path := path, hash := none }

/-- Upper-casing of the ASCII letters, standing in for `strings.ToUpper`. -/
def asciiUpper (s : String) : String :=
  String.mk (s.data.map Char.toUpper)

/-- A world with a source tree `src` (a file `.env`, a hidden directory `.git`
holding `A.txt`, then `A.txt`, `b.txt`, `c.txt`, `d.txt`), destination trees `dst`
(`a.txt`, `c.txt`, `z.txt`) and `dst2` (`a.txt`, `b.txt`, `z.txt`), a hidden
root `.cache`, a regular file `.profile` and a directory `.locked` that cannot
be read.  Every call of `os.Chtimes` succeeds.  The digest is the content itself.  The files named
`A.txt` or `a.txt` hold the same ten bytes; the files named `b.txt` cannot be
opened; `src/c.txt` opens but fails to read after one byte, `dst/c.txt` has
the same three bytes and reads well. -/
def demoWorld : World :=
  { md5 := fun bs => bs
    ToUpper := asciiUpper
    osOpen := fun p =>
      if p = "src/A.txt" ∨ p = "dst/a.txt" ∨ p = "dst2/a.txt" ∨ p = "src/.git/A.txt" then
        .ok { content := List.replicate 10 97, readErr := none }
      else if p = "src/c.txt" then .ok { content := [1, 2, 3], readErr := some 1 }
      else if p = "dst/c.txt" then .ok { content := [1, 2, 3], readErr := none }
      else if p = "src/d.txt" then .ok { content := List.replicate 10 98, readErr := none }
      else if p = "dst/z.txt" ∨ p = "dst2/z.txt" then .ok { content := [7], readErr := none }
      else .error "open failed"
    EvalSymlinks := fun p => .ok p
    osChtimes := fun _ _ _ => none
    Lstat := fun p =>
      if p = "src" then
        .ok dirInfo none
          (.cons "src/.env" (.ok (fileInfo 2 100 0) none .nil)
          (.cons "src/.git" (.ok dirInfo none
              (.cons "src/.git/A.txt" (.ok (fileInfo 10 300 0) none .nil) .nil))
          (.cons "src/A.txt" (.ok (fileInfo 10 100 5) none .nil)
          (.cons "src/b.txt" (.ok (fileInfo 4 100 0) none .nil)
          (.cons "src/c.txt" (.ok (fileInfo 3 100 0) none .nil)
          (.cons "src/d.txt" (.ok (fileInfo 10 100 0) none .nil) .nil))))))
      else if p = "dst" then
        .ok dirInfo none
          (.cons "dst/a.txt" (.ok (fileInfo 10 200 5) none .nil)
          (.cons "dst/c.txt" (.ok (fileInfo 3 200 0) none .nil)
          (.cons "dst/z.txt" (.ok (fileInfo 1 200 0) none .nil) .nil)))
      else if p = "dst2" then
        .ok dirInfo none
          (.cons "dst2/a.txt" (.ok (fileInfo 10 200 5) none .nil)
          (.cons "dst2/b.txt" (.ok (fileInfo 4 200 0) none .nil)
          (.cons "dst2/z.txt" (.ok (fileInfo 1 200 0) none .nil) .nil)))
      else if p = ".cache" then
        .ok dirInfo none (.cons ".cache/x" (.ok (fileInfo 1 1 0) none .nil) .nil)
      else if p = ".profile" then .ok (fileInfo 3 1 0) none .nil
      else if p = ".locked" then .ok dirInfo (some "permission denied") .nil
      else .bad "lstat failed" }

/-- Four candidates and a target (address 4): candidate 0 has the target's
second, candidate 1 other content, candidates 2 and 3 the target's content. -/
def demoMem : Mem :=
  Mem.ofList
    [ freshFile "src/A.txt" 10 200 900, freshFile "src/d.txt" 10 100 0,
      freshFile "src/A.txt" 10 100 5, freshFile "src/.git/A.txt" 10 300 0,
      freshFile "dst/a.txt" 10 200 5 ]

/-- A candidate (address 0) whose file opens but cannot be read to the end,
with the content and size of the target (address 1) and another second. -/
def readFailMem : Mem :=
  Mem.ofList [ freshFile "src/c.txt" 3 100 0, freshFile "dst/c.txt" 3 200 0 ]

/-! ## The walk as a sequence -/

/-- What a walk meets, in order: a non-directory entry handed to the
callback, or a failure of `Lstat` or of reading a directory. -/
inductive Item where
  | file (path : String) (info : FileInfo)
  | fail (err : String)
  deriving DecidableEq, Repr

/-- The base name of the path begins with a dot. -/
def dotName (path : String) : Bool :=
  decide ((Base path).data.head? = some '.')

mutual
/-- The items below an entry: a directory that was read and whose base name
begins with a dot contributes nothing. -/
def itemsNode (path : String) : Node → List Item
  | .bad e => [.fail e]
  | .ok info readErr entries =>
    if !info.isDir then [.file path info]
    else
      match readErr with
      | some e => [.fail e]
      | none => if dotName path then [] else itemsEntries entries
/-- The items of the entries of a directory, in order. -/
def itemsEntries : Entries → List Item
  | .nil => []
  | .cons filename node rest => itemsNode filename node ++ itemsEntries rest
end

/-- The entry is a directory that was read and whose base name begins with a dot. -/
def prunedDir (path : String) : Node → Bool
  | .ok info none _ => info.isDir && dotName path
  | _ => false

/-- The key `walk` builds for a non-directory entry. -/
def keyOf (w : World) (path : String) (info : FileInfo) : keyT :=
  { Name := w.ToUpper (Base path), Size := info.size }

/-- What the function literal of `walk` does with a non-directory entry:
build the key, allocate the record, call the callback. -/
def visitFile {σ : Type} (w : World) (callback : Callback σ) (path : String)
    (info : FileInfo) (s : Mem × σ) : Option Err × (Mem × σ) :=
  callback (keyOf w path info) s.1.next
    ((s.1.alloc { Path := path, info := info, hash := none }).2, s.2)

/-- Process items in order, stopping at the first failure or callback error. -/
def runItems {σ : Type} (w : World) (callback : Callback σ) :
    List Item → Mem × σ → Option Err × (Mem × σ)
  | [], s => (none, s)
  | .fail e :: _, s => (some (.os e), s)
  | .file path info :: rest, s =>
    match visitFile w callback path info s with
    | (none, s1) => runItems w callback rest s1
    | (some err, s1) => (some err, s1)

/-- The root `walk` starts from: the result of `EvalSymlinks` when it succeeds. -/
def resolveRoot (w : World) (root : String) : String :=
  match w.EvalSymlinks root with
  | .ok path => path
  | .error _ => root

/-- The items of a walk from `root`. -/
def walkItems (w : World) (root : String) : List Item :=
  itemsNode (resolveRoot w root) (w.Lstat (resolveRoot w root))


/-! ## The tree as the specification sees it -/

mutual
/-- Every non-directory entry found below an entry by reading directories,
with its path, its `FileInfo`, and whether it lies inside a directory whose
base name begins with a dot. -/
def entriesOf (path : String) (inDot : Bool) : Node → List (String × FileInfo × Bool)
  | .bad _ => []
  | .ok info readErr entries =>
    if !info.isDir then [(path, info, inDot)]
    else
      match readErr with
      | some _ => []
      | none => entriesOfList (inDot || dotName path) entries
/-- The non-directory entries below the entries of a directory. -/
def entriesOfList (inDot : Bool) : Entries → List (String × FileInfo × Bool)
  | .nil => []
  | .cons filename node rest => entriesOf filename inDot node ++ entriesOfList inDot rest
end

/-- All non-directory entries of the tree at `root`, in lexical walk order. -/
def allFiles (w : World) (root : String) : List (String × FileInfo × Bool) :=
  entriesOf (resolveRoot w root) false (w.Lstat (resolveRoot w root))

/-- The non-directory entries that do not lie inside a directory whose base
name begins with a dot. -/
def visibleFiles (w : World) (root : String) : List (String × FileInfo) :=
  ((allFiles w root).filter (fun e => !e.2.2)).map (fun e => (e.1, e.2.1))

/-- The addresses `start`, `start + 1`, ... given to the entries in order,
restricted to the entries whose key is `k`. -/
def bucket (w : World) (start : Nat) (vis : List (String × FileInfo)) (k : keyT) : List Nat :=
  ((vis.enumFrom start).filter (fun e => decide (keyOf w e.2.1 e.2.2 = k))).map Prod.fst

/-- The record `walk` creates for an entry. -/
def recordOf (e : String × FileInfo) : File :=
  { Path := e.1, info := e.2, hash := none }


/-- No item of the list is a failure. -/
def noFail (l : List Item) : Prop := ∀ e, Item.fail e ∉ l

/-- The addresses `start`, `start + 1`, ... of the entries, restricted to those
whose upper-cased base name and size are those of the entry `(path, info)`. -/
def candidatesFor (w : World) (start : Nat) (vis : List (String × FileInfo))
    (path : String) (info : FileInfo) : List Nat :=
  ((vis.enumFrom start).filter (fun e =>
    decide (w.ToUpper (Base e.2.1) = w.ToUpper (Base path) ∧ e.2.2.size = info.size))).map
    Prod.fst


/-- The scan variables at the start of the scan of `mains`. -/
def scan0 : Scan :=
  { dstCount := 0, updCount := 0, stdout := [], chtimes := [] }

/-- A reported match: the matched source file's modification time and path,
then the destination file's modification time and path. -/
abbrev Report := Time × String × Time × String

/-- The lines printed for a list of matches when `-update` is set and `-batch`
is not: source line, the marker `->`, destination line, for each match. -/
def reportLines : List Report → List Event
  | [] => []
  | r :: rest =>
    Event.srcLine r.1 r.2.1 :: Event.arrow :: Event.dstLine r.2.2.1 r.2.2.2 :: reportLines rest

/-- The call `os.Chtimes(dst, srcTime, srcTime)` that repairs a reported match. -/
def repairOf (r : Report) : String × Time × Time :=
  (r.2.2.2, r.1, r.1)

/-- The arguments `src dst`, both flags set. -/
def batchUpdateFlags : Flags :=
  { flagBatch := true, flagUpdate := true }

/-- The flag `-update` alone. -/
def updateFlags : Flags :=
  { flagBatch := false, flagUpdate := true }


/-- The scan variables after the destination file has been counted as
compared (`dstCount++`). -/
def counted (r : Scan) : Scan :=
  { r with dstCount := r.dstCount + 1 }

/-- What the report/repair branch of the scan callback (main.go 160-182) makes
of the scan variables for a matched source record `src` and destination
record `dst`: with `-batch` the `touch -r` line; otherwise the two report
lines around the marker, and with `-update` the call of `os.Chtimes` on the
destination path with the source time, and `updCount++`. -/
def reportRepair (fl : Flags) (src dst : File) (r : Scan) : Scan :=
  if fl.flagBatch then { r with stdout := r.stdout ++ [.touchLine src.Path dst.Path] }
  else if fl.flagUpdate then
    { r with
      stdout := r.stdout ++
        [.srcLine src.info.modTime src.Path, .arrow, .dstLine dst.info.modTime dst.Path],
      chtimes := r.chtimes ++ [(dst.Path, src.info.modTime, src.info.modTime)],
      updCount := r.updCount + 1 }
  else
    { r with
      stdout := r.stdout ++
        [.srcLine src.info.modTime src.Path, .differs, .dstLine dst.info.modTime dst.Path] }

/-- What the scan does with a destination file, told through the matcher:
count the file; with no candidates under its key, nothing more; otherwise
call `findSameFileButTimeDiff` on the candidates with the new record as
target, return its error, or report and repair its match. -/
def scanStep (w : World) (fl : Flags) (source : Index) (path : String) (info : FileInfo)
    (s : Mem × Scan) : Option Err × (Mem × Scan) :=
  match source (keyOf w path info) with
  | none => (none, ((s.1.alloc { Path := path, info := info, hash := none }).2, counted s.2))
  | some srcFiles =>
    match findSameFileButTimeDiff w srcFiles s.1.next
        (s.1.alloc { Path := path, info := info, hash := none }).2 with
    | (.error e, m1) => (some e, (m1, counted s.2))
    | (.ok none, m1) => (none, (m1, counted s.2))
    | (.ok (some p), m1) =>
      (none, (m1, reportRepair fl (m1.files p) (m1.files s.1.next) (counted s.2)))

/-- The paths of the files among the items. -/
def itemPaths : List Item → List String
  | [] => []
  | .file path _ :: rest => path :: itemPaths rest
  | .fail _ :: rest => itemPaths rest

/-- The matches found by a scan: for each destination file in traversal
order, up to the first walk failure or matcher error, the answer of
`findSameFileButTimeDiff` on the candidates the index holds under the file's
key; a match is the matched source record's modification time and path and
the destination file's modification time and path. -/
def matchLog (w : World) (source : Index) : List Item → Mem → List Report
  | [], _ => []
  | .fail _ :: _, _ => []
  | .file path info :: rest, m =>
    match source (keyOf w path info) with
    | none => matchLog w source rest (m.alloc { Path := path, info := info, hash := none }).2
    | some srcFiles =>
      match findSameFileButTimeDiff w srcFiles m.next
          (m.alloc { Path := path, info := info, hash := none }).2 with
      | (.error _, _) => []
      | (.ok none, m1) => matchLog w source rest m1
      | (.ok (some p), m1) =>
        ((m1.files p).info.modTime, (m1.files p).Path, info.modTime, path)
          :: matchLog w source rest m1

/-- The matches found by a run of `mains`: none when the arguments are too
few or indexing the source fails. -/
def scanMatches (w : World) (args : List String) (m : Mem) : List Report :=
  match args with
  | srcRoot :: dstRoot :: _ =>
    match getTree w srcRoot m with
    | ((_, _, some _), _) => []
    | ((source, _, none), m1) => matchLog w source (walkItems w dstRoot) m1
  | _ => []

/-- The paths of the destination files a run of `mains` can reach. -/
def dstPaths (w : World) (args : List String) : List String :=
  match args with
  | _ :: dstRoot :: _ => itemPaths (walkItems w dstRoot)
  | _ => []

/-- The access and modification time a path has on disk after the given calls
of `os.Chtimes`, made in order: those of the last call on the path that
succeeded; `none` when no call on the path succeeded, so that the file keeps
the times it had. -/
def diskTimes (w : World) : List (String × Time × Time) → String → Option (Time × Time)
  | [], _ => none
  | c :: rest, path =>
    match diskTimes w rest path with
    | some t => some t
    | none =>
      if c.1 = path ∧ w.osChtimes c.1 c.2.1 c.2.2 = none then some (c.2.1, c.2.2) else none

deriving instance DecidableEq for Except

/-- The source index `getTree` builds for the tree `src` of `demoWorld`. -/
def demoSource : Index :=
  (getTree demoWorld "src" Mem.init).1.1

/-- The heap after indexing the tree `src` of `demoWorld`. -/
def demoIndexed : Mem :=
  (getTree demoWorld "src" Mem.init).2

/-- The state of the scan of `dst2` after its first file, `dst2/a.txt`. -/
def demoBefore : Mem × Scan :=
  (runItems demoWorld (scanCallback demoWorld updateFlags demoSource)
    [Item.file "dst2/a.txt" (fileInfo 10 200 5)] (demoIndexed, scan0)).2

/-- The heap after the failing matcher call for `dst2/b.txt`. -/
def demoFailed : Mem :=
  (findSameFileButTimeDiff demoWorld [2] demoBefore.1.next
    (demoBefore.1.alloc { Path := "dst2/b.txt", info := fileInfo 4 200 0, hash := none }).2).2


/-! ## Lemmas on the fingerprint and the matcher -/

theorem agree_refl (w : World) (m : Mem) : m.agree w m :=
  ⟨rfl, fun _ => ⟨rfl, rfl, rfl⟩⟩

theorem agree_trans {w : World} {m m1 m2 : Mem} (h1 : m.agree w m1) (h2 : m1.agree w m2) :
    m.agree w m2 := by
  refine ⟨h2.1.trans h1.1, fun q => ?_⟩
  obtain ⟨a1, b1, c1⟩ := h1.2 q
  obtain ⟨a2, b2, c2⟩ := h2.2 q
  exact ⟨a2.trans a1, b2.trans b1, c2.trans c1⟩

theorem Hash_fst (w : World) (f : Nat) (m : Mem) :
    (File.Hash w f m).1 = fingerprint w (m.files f) := by
  unfold File.Hash fingerprint hash
  cases h : (m.files f).hash with
  | some d => simp
  | none =>
    cases h2 : w.osOpen (m.files f).Path <;> simp

theorem Hash_agree (w : World) (f : Nat) (m : Mem) : m.agree w (File.Hash w f m).2 := by
  unfold File.Hash hash
  cases h : (m.files f).hash with
  | some d => exact agree_refl w m
  | none =>
    cases h2 : w.osOpen (m.files f).Path with
    | error e =>
      refine ⟨rfl, fun q => ?_⟩
      by_cases hq : q = f
      · subst hq
        simp [Mem.write, fingerprint, h, h2]
      · simp [Mem.write, hq]
    | ok fd =>
      refine ⟨rfl, fun q => ?_⟩
      by_cases hq : q = f
      · subst hq
        simp [Mem.write, fingerprint, h, h2]
      · simp [Mem.write, hq]

theorem Sametime_agree {w : World} {m m1 : Mem} (h : m.agree w m1) (p q : Nat) :
    File.Sametime (m1.files p) (m1.files q) = File.Sametime (m.files p) (m.files q) := by
  unfold File.Sametime
  rw [(h.2 p).1, (h.2 q).1]

theorem Equal_agree (w : World) (a b : Nat) (m : Mem) : m.agree w (File.Equal w a b m).2 := by
  unfold File.Equal
  have h1 := Hash_agree w a m
  cases ha : File.Hash w a m with
  | mk r m1 =>
    rw [ha] at h1
    cases r with
    | error e => exact h1
    | ok d1 =>
      have h2 := Hash_agree w b m1
      dsimp only
      cases hb : File.Hash w b m1 with
      | mk r2 m2 =>
        rw [hb] at h2
        cases r2 with
        | error e => exact agree_trans h1 h2
        | ok d2 => exact agree_trans h1 h2

theorem Equal_fst (w : World) (a b : Nat) (m : Mem) :
    (File.Equal w a b m).1 =
      match fingerprint w (m.files a) with
      | .error e => .error e
      | .ok h1 =>
        match fingerprint w (m.files b) with
        | .error e => .error e
        | .ok h2 => .ok (decide (h1 = h2)) := by
  unfold File.Equal
  have h1 := Hash_agree w a m
  have f1 := Hash_fst w a m
  cases ha : File.Hash w a m with
  | mk r m1 =>
    rw [ha] at h1 f1
    simp only at f1
    rw [← f1]
    cases r with
    | error e => rfl
    | ok d1 =>
      have f2 := Hash_fst w b m1
      rw [(h1.2 b).2.2] at f2
      dsimp only
      cases hb : File.Hash w b m1 with
      | mk r2 m2 =>
        rw [hb] at f2
        simp only at f2
        rw [← f2]
        cases r2 <;> rfl

theorem firstMatch_agree {w : World} {m m1 : Mem} (h : m.agree w m1) (dstFile : Nat)
    (l : List Nat) : firstMatch w m1 dstFile l = firstMatch w m dstFile l := by
  induction l with
  | nil => rfl
  | cons p rest ih =>
    simp only [firstMatch, Sametime_agree h, (h.2 p).2.2, (h.2 dstFile).2.2, ih]

theorem findSame_spec (w : World) (srcFiles : List Nat) (dstFile : Nat) (m : Mem) :
    (findSameFileButTimeDiff w srcFiles dstFile m).1 = firstMatch w m dstFile srcFiles ∧
    m.agree w (findSameFileButTimeDiff w srcFiles dstFile m).2 := by
  induction srcFiles generalizing m with
  | nil => exact ⟨rfl, agree_refl w m⟩
  | cons p rest ih =>
    unfold findSameFileButTimeDiff firstMatch
    by_cases hs : File.Sametime (m.files p) (m.files dstFile) = true
    · simp only [hs, if_true]
      exact ih m
    · simp only [hs, if_false]
      have e1 := Equal_fst w p dstFile m
      have e2 := Equal_agree w p dstFile m
      cases he : File.Equal w p dstFile m with
      | mk r m1 =>
        rw [he] at e1 e2
        simp only at e1 e2
        cases hp : fingerprint w (m.files p) with
        | error e =>
          rw [hp] at e1
          simp only at e1
          subst e1
          exact ⟨rfl, e2⟩
        | ok h1 =>
          rw [hp] at e1
          cases hd : fingerprint w (m.files dstFile) with
          | error e =>
            rw [hd] at e1
            simp only at e1
            subst e1
            exact ⟨rfl, e2⟩
          | ok h2 =>
            rw [hd] at e1
            simp only at e1
            subst e1
            by_cases hh : h1 = h2
            · simp only [hh, decide_True, if_true]
              exact ⟨rfl, e2⟩
            · simp only [hh, decide_False, if_false]
              obtain ⟨i1, i2⟩ := ih m1
              exact ⟨i1.trans (firstMatch_agree e2 dstFile rest), agree_trans e2 i2⟩

theorem firstMatch_eq_find (w : World) (m : Mem) (dstFile : Nat) (l : List Nat)
    (hdst : ∃ d, fingerprint w (m.files dstFile) = .ok d)
    (hsrc : ∀ p ∈ l, ∃ d, fingerprint w (m.files p) = .ok d) :
    firstMatch w m dstFile l = .ok (l.find? (isMatch w m dstFile)) := by
  obtain ⟨d, hd⟩ := hdst
  induction l with
  | nil => rfl
  | cons p rest ih =>
    have ih1 := ih (fun q hq => hsrc q (List.mem_cons_of_mem p hq))
    obtain ⟨c, hc⟩ := hsrc p (List.mem_cons_self p rest)
    unfold firstMatch
    rw [List.find?_cons]
    by_cases hs : File.Sametime (m.files p) (m.files dstFile) = true
    · simp [isMatch, hs, ih1]
    · by_cases hh : c = d
      · simp [isMatch, sameDigest, hs, hc, hd, hh]
      · simp [isMatch, sameDigest, hs, hc, hd, hh, ih1]

/-- C1: when the fingerprints of the target and of every candidate can be
computed, `findSameFileButTimeDiff` returns the first candidate, in sequence
order, whose whole-second modification time differs from the target's and
whose fingerprint equals the target's; it returns none exactly when no
candidate satisfies both; a returned candidate is preceded only by
candidates that do not satisfy both. -/
theorem findSameFileButTimeDiff_first_match (w : World) (srcFiles : List Nat)
    (dstFile : Nat) (m : Mem)
    (hdst : ∃ d, fingerprint w (m.files dstFile) = .ok d)
    (hsrc : ∀ p ∈ srcFiles, ∃ d, fingerprint w (m.files p) = .ok d) :
    (findSameFileButTimeDiff w srcFiles dstFile m).1
        = .ok (srcFiles.find? (isMatch w m dstFile)) ∧
    ((findSameFileButTimeDiff w srcFiles dstFile m).1 = .ok none ↔
        ∀ p ∈ srcFiles, isMatch w m dstFile p = false) ∧
    (∀ r, (findSameFileButTimeDiff w srcFiles dstFile m).1 = .ok (some r) →
        isMatch w m dstFile r = true ∧
        ∃ pre post, srcFiles = pre ++ r :: post ∧
          ∀ q ∈ pre, isMatch w m dstFile q = false) := by
  have key : (findSameFileButTimeDiff w srcFiles dstFile m).1
      = .ok (srcFiles.find? (isMatch w m dstFile)) := by
    rw [(findSame_spec w srcFiles dstFile m).1]
    exact firstMatch_eq_find w m dstFile srcFiles hdst hsrc
  refine ⟨key, ?_, ?_⟩
  · rw [key]
    constructor
    · intro h p hp
      have h1 : srcFiles.find? (isMatch w m dstFile) = none := by
        injection h
      have h2 := (List.find?_eq_none.mp h1) p hp
      simpa using h2
    · intro h
      have h1 : srcFiles.find? (isMatch w m dstFile) = none := by
        apply List.find?_eq_none.mpr
        intro x hx
        simp [h x hx]
      rw [h1]
  · intro r hr
    rw [key] at hr
    have h1 : srcFiles.find? (isMatch w m dstFile) = some r := by
      injection hr
    obtain ⟨hp, pre, post, hl, hpre⟩ := List.find?_eq_some.mp h1
    refine ⟨hp, pre, post, hl, ?_⟩
    intro q hq
    simpa using hpre q hq

/-- Witness for C1 on `demoMem`: every fingerprint can be computed; candidate 0
is skipped (same second), candidate 1 differs in content, candidates 2 and 3
both match, and 2 is returned. -/
theorem findSameFileButTimeDiff_first_match_witness :
    (∃ d, fingerprint demoWorld (demoMem.files 4) = .ok d) ∧
    (∀ p ∈ [0, 1, 2, 3], ∃ d, fingerprint demoWorld (demoMem.files p) = .ok d) ∧
    isMatch demoWorld demoMem 4 3 = true ∧
    (findSameFileButTimeDiff demoWorld [0, 1, 2, 3] 4 demoMem).1 = .ok (some 2) := by
  have hdst : ∃ d, fingerprint demoWorld (demoMem.files 4) = .ok d := ⟨_, rfl⟩
  have hsrc : ∀ p ∈ [0, 1, 2, 3], ∃ d, fingerprint demoWorld (demoMem.files p) = .ok d := by
    intro p hp
    simp only [List.mem_cons, List.mem_singleton, List.not_mem_nil, or_false] at hp
    rcases hp with h | h | h | h <;> subst h <;> exact ⟨_, rfl⟩
  refine ⟨hdst, hsrc, by decide, ?_⟩
  rw [(findSameFileButTimeDiff_first_match demoWorld [0, 1, 2, 3] 4 demoMem hdst hsrc).1]
  rfl

theorem firstMatch_some {w : World} {m : Mem} {dstFile : Nat} {l : List Nat} {r : Nat}
    (h : firstMatch w m dstFile l = .ok (some r)) :
    r ∈ l ∧ File.Sametime (m.files r) (m.files dstFile) = false := by
  induction l with
  | nil => simp [firstMatch] at h
  | cons p rest ih =>
    unfold firstMatch at h
    by_cases hs : File.Sametime (m.files p) (m.files dstFile) = true
    · simp only [hs, if_true] at h
      exact ⟨List.mem_cons_of_mem p (ih h).1, (ih h).2⟩
    · simp only [hs, if_false] at h
      cases hp : fingerprint w (m.files p) with
      | error e => simp [hp] at h
      | ok h1 =>
        cases hd : fingerprint w (m.files dstFile) with
        | error e => simp [hp, hd] at h
        | ok h2 =>
          simp only [hp, hd] at h
          by_cases hh : h1 = h2
          · simp only [hh, if_true] at h
            injection h with h
            injection h with h
            subst h
            exact ⟨List.mem_cons_self _ _, by simpa using hs⟩
          · simp only [hh, if_false] at h
            exact ⟨List.mem_cons_of_mem p (ih h).1, (ih h).2⟩

theorem findSame_all_same_second (w : World) (srcFiles : List Nat) (dstFile : Nat) (m : Mem)
    (h : ∀ p ∈ srcFiles, File.Sametime (m.files p) (m.files dstFile) = true) :
    findSameFileButTimeDiff w srcFiles dstFile m = (.ok none, m) := by
  induction srcFiles with
  | nil => rfl
  | cons p rest ih =>
    unfold findSameFileButTimeDiff
    rw [if_pos (h p (List.mem_cons_self p rest))]
    exact ih (fun q hq => h q (List.mem_cons_of_mem p hq))

/-- C2: with or without read failures, a record returned by
`findSameFileButTimeDiff` is one of the candidates and differs from the target
in whole-second modification time, before and after the call; when every
candidate has the target's second, the result is none, no error is returned
and the heap, `openCount` and the log of opened paths are unchanged. -/
theorem findSameFileButTimeDiff_never_same_second (w : World) (srcFiles : List Nat)
    (dstFile : Nat) (m : Mem) :
    (∀ r, (findSameFileButTimeDiff w srcFiles dstFile m).1 = .ok (some r) →
      r ∈ srcFiles ∧
      File.Sametime (m.files r) (m.files dstFile) = false ∧
      File.Sametime ((findSameFileButTimeDiff w srcFiles dstFile m).2.files r)
        ((findSameFileButTimeDiff w srcFiles dstFile m).2.files dstFile) = false) ∧
    ((∀ p ∈ srcFiles, File.Sametime (m.files p) (m.files dstFile) = true) →
      (findSameFileButTimeDiff w srcFiles dstFile m).1 = .ok none ∧
      (findSameFileButTimeDiff w srcFiles dstFile m).2 = m ∧
      (findSameFileButTimeDiff w srcFiles dstFile m).2.opens = m.opens) := by
  constructor
  · intro r hr
    rw [(findSame_spec w srcFiles dstFile m).1] at hr
    obtain ⟨h1, h2⟩ := firstMatch_some hr
    refine ⟨h1, h2, ?_⟩
    rw [Sametime_agree (findSame_spec w srcFiles dstFile m).2]
    exact h2
  · intro h
    rw [findSame_all_same_second w srcFiles dstFile m h]
    exact ⟨rfl, rfl, rfl⟩

/-- When `Hash` returns an error for a compared record, the matcher returns
that error; it returns none only when every candidate with another second
has a fingerprint, the target has one, and the two differ. -/
theorem findSame_none_only_if (w : World) (srcFiles : List Nat) (dstFile : Nat) (m : Mem)
    (h : (findSameFileButTimeDiff w srcFiles dstFile m).1 = .ok none) :
    ∀ p ∈ srcFiles, File.Sametime (m.files p) (m.files dstFile) = false →
      ∃ h1 h2, fingerprint w (m.files p) = .ok h1 ∧
        fingerprint w (m.files dstFile) = .ok h2 ∧ h1 ≠ h2 := by
  rw [(findSame_spec w srcFiles dstFile m).1] at h
  induction srcFiles with
  | nil => intro p hp; simp at hp
  | cons q rest ih =>
    intro p hp hs
    unfold firstMatch at h
    by_cases hq : File.Sametime (m.files q) (m.files dstFile) = true
    · simp only [hq, if_true] at h
      rcases List.mem_cons.mp hp with e | e
      · subst e; rw [hq] at hs; cases hs
      · exact ih h p e hs
    · simp only [hq, if_false] at h
      cases hc : fingerprint w (m.files q) with
      | error e => simp [hc] at h
      | ok h1 =>
        cases hd : fingerprint w (m.files dstFile) with
        | error e => simp [hc, hd] at h
        | ok h2 =>
          simp only [hc, hd] at h
          by_cases hh : h1 = h2
          · simp [hh] at h
          · simp only [hh, if_false] at h
            rcases List.mem_cons.mp hp with e | e
            · subst e; exact ⟨h1, h2, hc, rfl, hh⟩
            · obtain ⟨a, b, ha, hb, hab⟩ := ih h p e hs
              exact ⟨a, b, ha, hd.symm.trans hb, hab⟩

/-- C3, evaluated where it fails: the candidate `src/c.txt` has the three
bytes of the target `dst/c.txt` and another second; it opens, reading it fails
after one byte, and `findSameFileButTimeDiff` returns none with no error. -/
theorem findSameFileButTimeDiff_read_failure_gives_none :
    demoWorld.osOpen "src/c.txt" = .ok { content := [1, 2, 3], readErr := some 1 } ∧
    demoWorld.osOpen "dst/c.txt" = .ok { content := [1, 2, 3], readErr := none } ∧
    File.Sametime (readFailMem.files 0) (readFailMem.files 1) = false ∧
    (findSameFileButTimeDiff demoWorld [0] 1 readFailMem).1 = .ok none :=
  ⟨rfl, rfl, rfl, rfl⟩

theorem hash_open_error (w : World) (path : String) (m : Mem) (e : String)
    (h : w.osOpen path = .error e) : (hash w path m).1 = .error (.os e) := by
  simp [hash, h]

theorem hash_full_read (w : World) (path : String) (m : Mem) (fd : Handle)
    (h : w.osOpen path = .ok fd) (hr : fd.readErr = none) :
    (hash w path m).1 = .ok (w.md5 fd.content) := by
  simp [hash, h, ioCopy, hr]

/-- C4, evaluated where it fails: `src/c.txt` opens and reading it fails after
one of its three bytes; `hash` returns no error but the digest of the one
byte read, which is not the digest of the complete content. -/
theorem hash_read_failure_returns_partial_digest :
    demoWorld.osOpen "src/c.txt" = .ok { content := [1, 2, 3], readErr := some 1 } ∧
    (hash demoWorld "src/c.txt" Mem.init).1 = .ok (demoWorld.md5 [1]) ∧
    demoWorld.md5 [1] ≠ demoWorld.md5 [1, 2, 3] :=
  ⟨rfl, rfl, by decide⟩

theorem Hash_of_cached (w : World) (f : Nat) (m : Mem) (d : List Nat)
    (h : (m.files f).hash = some d) : File.Hash w f m = (.ok d, m) := by
  simp [File.Hash, h]

theorem Hash_keeps_cache (w : World) (p f : Nat) (m : Mem) (d : List Nat)
    (h : (m.files f).hash = some d) : ((File.Hash w p m).2.files f).hash = some d := by
  by_cases hp : p = f
  · subst hp
    rw [Hash_of_cached w p m d h]
    exact h
  · have hfp : ¬ f = p := fun e => hp e.symm
    unfold File.Hash hash
    cases hc : (m.files p).hash with
    | some c => simpa using h
    | none =>
      cases ho : w.osOpen (m.files p).Path <;> simp [Mem.write, hfp, h]

theorem Hash_ok_caches (w : World) (f : Nat) (m m1 : Mem) (d : List Nat)
    (h : File.Hash w f m = (.ok d, m1)) : (m1.files f).hash = some d := by
  unfold File.Hash hash at h
  cases hc : (m.files f).hash with
  | some c =>
    simp only [hc] at h
    injection h with h1 h2
    injection h1 with h1
    subst h1 h2
    exact hc
  | none =>
    cases ho : w.osOpen (m.files f).Path with
    | error e => simp [hc, ho] at h
    | ok fd =>
      simp only [hc, ho] at h
      injection h with h1 h2
      injection h1 with h1
      subst h1 h2
      simp [Mem.write]

theorem hashAll_keeps_cache (w : World) (ps : List Nat) (f : Nat) (m : Mem) (d : List Nat)
    (h : (m.files f).hash = some d) : ((hashAll w ps m).files f).hash = some d := by
  induction ps generalizing m with
  | nil => exact h
  | cons p rest ih => exact ih _ (Hash_keeps_cache w p f m d h)

theorem opensBy_of_cached (w : World) (f : Nat) (ps : List Nat) (m : Mem) (d : List Nat)
    (h : (m.files f).hash = some d) : opensBy w f ps m = 0 := by
  induction ps generalizing m with
  | nil => rfl
  | cons p rest ih =>
    unfold opensBy
    rw [ih _ (Hash_keeps_cache w p f m d h)]
    by_cases hp : p = f
    · subst hp
      rw [Hash_of_cached w p m d h]
      simp
    · simp [hp]

theorem opensBy_le_one (w : World) (f : Nat) (ps : List Nat) (m : Mem) :
    opensBy w f ps m ≤ 1 := by
  induction ps generalizing m with
  | nil => exact Nat.zero_le 1
  | cons p rest ih =>
    unfold opensBy
    by_cases hp : p = f
    · subst hp
      simp only [if_true]
      cases hr : File.Hash w p m with
      | mk r m1 =>
        cases r with
        | error e =>
          have hcount : m1.openCount = m.openCount := by
            unfold File.Hash hash at hr
            cases hc : (m.files p).hash with
            | some c => simp [hc] at hr
            | none =>
              cases ho : w.osOpen (m.files p).Path with
              | error e =>
                simp only [hc, ho] at hr
                injection hr with h1 h2
                subst h2
                rfl
              | ok fd => simp [hc, ho] at hr
          have := ih m1
          simp only [hcount, Nat.sub_self, Nat.zero_add]
          exact this
        | ok d =>
          have hcache := Hash_ok_caches w p m m1 d hr
          have hcount : m1.openCount ≤ m.openCount + 1 := by
            unfold File.Hash hash at hr
            cases hc : (m.files p).hash with
            | some c =>
              simp only [hc] at hr
              injection hr with h1 h2
              subst h2
              exact Nat.le_succ _
            | none =>
              cases ho : w.osOpen (m.files p).Path with
              | error e => simp [hc, ho] at hr
              | ok fd =>
                simp only [hc, ho] at hr
                injection hr with h1 h2
                subst h2
                exact Nat.le_refl _
          rw [opensBy_of_cached w p rest m1 d hcache]
          simp only [Nat.add_zero]
          omega
    · simp only [hp, if_false, Nat.zero_add]
      exact ih _

/-- C5: when a call of `Hash` on a record succeeds with digest `d`, then after
any further calls of `Hash` on any records, a call of `Hash` on that record
returns `d` without error and leaves the whole state as it is (the heap,
`openCount`, and the log of opened paths, so no file is opened); and over any
sequence of calls of `Hash`, the calls made on one record raise `openCount` by
at most one in total. -/
theorem Hash_cached_after_first_success (w : World) (f : Nat) (m m1 : Mem) (d : List Nat)
    (h : File.Hash w f m = (.ok d, m1)) :
    (∀ ps, File.Hash w f (hashAll w ps m1) = (.ok d, hashAll w ps m1)) ∧
    (∀ ps, (File.Hash w f (hashAll w ps m1)).2.openCount = (hashAll w ps m1).openCount ∧
      (File.Hash w f (hashAll w ps m1)).2.opens = (hashAll w ps m1).opens) ∧
    (∀ ps m0, opensBy w f ps m0 ≤ 1) := by
  have hc := Hash_ok_caches w f m m1 d h
  have key : ∀ ps, File.Hash w f (hashAll w ps m1) = (.ok d, hashAll w ps m1) :=
    fun ps => Hash_of_cached w f _ d (hashAll_keeps_cache w ps f m1 d hc)
  refine ⟨key, fun ps => ?_, fun ps m0 => opensBy_le_one w f ps m0⟩
  rw [key ps]
  exact ⟨rfl, rfl⟩

/-- Witness for C5: the target of `demoMem` (address 4) is hashed, then the
candidates 2, 3 and the target again; the last call on the target returns
the same digest, and `openCount` stays at 3. -/
theorem Hash_cached_after_first_success_witness :
    File.Hash demoWorld 4 demoMem
      = (.ok (List.replicate 10 97), (File.Hash demoWorld 4 demoMem).2) ∧
    (File.Hash demoWorld 4 (hashAll demoWorld [2, 3, 4] (File.Hash demoWorld 4 demoMem).2)).1
      = .ok (List.replicate 10 97) ∧
    (File.Hash demoWorld 4
      (hashAll demoWorld [2, 3, 4] (File.Hash demoWorld 4 demoMem).2)).2.openCount = 3 ∧
    opensBy demoWorld 4 [4, 2, 4, 3, 4] demoMem ≤ 1 := by
  have h0 : File.Hash demoWorld 4 demoMem
      = (.ok (List.replicate 10 97), (File.Hash demoWorld 4 demoMem).2) := rfl
  have h := Hash_cached_after_first_success demoWorld 4 demoMem _ _ h0
  refine ⟨h0, ?_, ?_, h.2.2 _ _⟩
  · rw [h.1 [2, 3, 4]]
  · rw [(h.2.1 [2, 3, 4]).1]
    decide

/-! ## The walk as a sequence: lemmas -/

theorem runItems_append {σ : Type} (w : World) (cb : Callback σ) (a b : List Item)
    (s : Mem × σ) :
    runItems w cb (a ++ b) s =
      match runItems w cb a s with
      | (none, s1) => runItems w cb b s1
      | (some err, s1) => (some err, s1) := by
  induction a generalizing s with
  | nil => rfl
  | cons it rest ih =>
    cases it with
    | fail e => rfl
    | file path info =>
      simp only [List.cons_append, runItems]
      cases hv : visitFile w cb path info s with
      | mk r s1 =>
        cases r with
        | none => exact ih s1
        | some err => rfl

theorem runItems_ne_SkipDir {σ : Type} (w : World) (cb : Callback σ)
    (hcb : ∀ k v s, (cb k v s).1 ≠ some Err.SkipDir) (l : List Item) (s : Mem × σ) :
    (runItems w cb l s).1 ≠ some Err.SkipDir := by
  induction l generalizing s with
  | nil => simp [runItems]
  | cons it rest ih =>
    cases it with
    | fail e => simp [runItems]
    | file path info =>
      simp only [runItems]
      cases hv : visitFile w cb path info s with
      | mk r s1 =>
        cases r with
        | none => exact ih s1
        | some err =>
          have := hcb (keyOf w path info) s.1.next
            ((s.1.alloc { Path := path, info := info, hash := none }).2, s.2)
          unfold visitFile at hv
          rw [hv] at this
          exact this

theorem walkFunc_file {σ : Type} (w : World) (cb : Callback σ) (path : String)
    (info : FileInfo) (s : Mem × σ) (h : info.isDir = false) :
    walkFunc w cb path (.entry info none) s = visitFile w cb path info s := by
  simp [walkFunc, h, visitFile, keyOf, Mem.alloc]

mutual
theorem walkNode_eq {σ : Type} (w : World) (cb : Callback σ)
    (hcb : ∀ k v s, (cb k v s).1 ≠ some Err.SkipDir) (path : String) :
    (node : Node) → (s : Mem × σ) →
    walkNode (walkFunc w cb) path node s =
      if prunedDir path node then (some Err.SkipDir, s)
      else runItems w cb (itemsNode path node) s
  | .bad e, s => by
    simp [walkNode, walkFunc, prunedDir, itemsNode, runItems]
  | .ok info readErr entries, s => by
    cases hd : info.isDir with
    | false =>
      have : prunedDir path (.ok info readErr entries) = false := by
        cases readErr <;> simp [prunedDir, hd]
      rw [this]
      simp only [walkNode, hd, itemsNode, runItems, Bool.not_false, if_true]
      rw [walkFunc_file w cb path info s hd]
      cases visitFile w cb path info s with
      | mk r s1 => cases r <;> simp [runItems]
    | true =>
      cases readErr with
      | some e =>
        simp [walkNode, hd, walkFunc, prunedDir, itemsNode, runItems]
      | none =>
        by_cases hdot : dotName path = true
        · have hdot2 : (Base path).data.head? = some '.' := by
            simpa [dotName] using hdot
          simp [walkNode, hd, walkFunc, prunedDir, hdot, hdot2]
        · have hdot2 : ¬ (Base path).data.head? = some '.' := by
            simpa [dotName] using hdot
          have ih := walkEntries_eq w cb hcb entries s
          simp [walkNode, hd, walkFunc, prunedDir, itemsNode, hdot, hdot2, ih]
theorem walkEntries_eq {σ : Type} (w : World) (cb : Callback σ)
    (hcb : ∀ k v s, (cb k v s).1 ≠ some Err.SkipDir) :
    (entries : Entries) → (s : Mem × σ) →
    walkEntries (walkFunc w cb) entries s = runItems w cb (itemsEntries entries) s
  | .nil, s => by simp [walkEntries, itemsEntries, runItems]
  | .cons filename node rest, s => by
    have h1 := walkNode_eq w cb hcb filename node s
    have h2 := fun s1 => walkEntries_eq w cb hcb rest s1
    rw [itemsEntries, runItems_append, walkEntries, h1]
    by_cases hp : prunedDir filename node = true
    · have hitems : itemsNode filename node = [] := by
        cases node with
        | bad e => simp [prunedDir] at hp
        | ok info readErr entries =>
          cases readErr with
          | some e => simp [prunedDir] at hp
          | none =>
            simp only [prunedDir, Bool.and_eq_true] at hp
            simp [itemsNode, hp.1, hp.2]
      rw [hitems]
      simp only [hp, if_true, runItems]
      cases node with
      | bad e => simp [prunedDir] at hp
      | ok info readErr entries =>
        cases readErr with
        | some e => simp [prunedDir] at hp
        | none =>
          simp only [prunedDir, Bool.and_eq_true] at hp
          simp [hp.1, h2]
    · simp only [hp, if_false]
      have hne := runItems_ne_SkipDir w cb hcb (itemsNode filename node) s
      cases hr : runItems w cb (itemsNode filename node) s with
      | mk r s1 =>
        rw [hr] at hne
        cases r with
        | none => simp [h2]
        | some err =>
          have hne2 : err ≠ Err.SkipDir := fun e => hne (by rw [e])
          cases node <;> simp [hne2]
end

theorem walk_eq_runItems {σ : Type} (w : World) (cb : Callback σ)
    (hcb : ∀ k v s, (cb k v s).1 ≠ some Err.SkipDir) (root : String) (s : Mem × σ) :
    walk w root cb s = runItems w cb (walkItems w root) s := by
  have h : walk w root cb s
      = filepathWalk w (resolveRoot w root) (walkFunc w cb) s := by
    unfold walk resolveRoot
    cases w.EvalSymlinks root <;> rfl
  rw [h, walkItems]
  unfold filepathWalk
  rw [walkNode_eq w cb hcb]
  by_cases hp : prunedDir (resolveRoot w root) (w.Lstat (resolveRoot w root)) = true
  · have hitems : itemsNode (resolveRoot w root) (w.Lstat (resolveRoot w root)) = [] := by
      cases hn : w.Lstat (resolveRoot w root) with
      | bad e => simp [hn, prunedDir] at hp
      | ok info readErr entries =>
        rw [hn] at hp
        cases readErr with
        | some e => simp [prunedDir] at hp
        | none =>
          simp only [prunedDir, Bool.and_eq_true] at hp
          simp [itemsNode, hp.1, hp.2]
    rw [hitems]
    simp [hp, runItems]
  · simp only [hp, if_false]
    have hne := runItems_ne_SkipDir w cb hcb
      (itemsNode (resolveRoot w root) (w.Lstat (resolveRoot w root))) s
    cases hr : runItems w cb
        (itemsNode (resolveRoot w root) (w.Lstat (resolveRoot w root))) s with
    | mk r s1 =>
      rw [hr] at hne
      cases r with
      | none => rfl
      | some err =>
        cases err with
        | SkipDir => exact absurd rfl hne
        | usage => rfl
        | os msg => rfl

/-! ## Indexing -/

mutual
theorem entriesOf_inDot (path : String) :
    (node : Node) → (entriesOf path true node).filter (fun e => !e.2.2) = []
  | .bad e => by simp [entriesOf]
  | .ok info readErr entries => by
    cases hd : info.isDir with
    | false => simp [entriesOf, hd]
    | true =>
      cases readErr with
      | some e => simp [entriesOf, hd]
      | none =>
        have ih := entriesOfList_inDot entries
        simp only [entriesOf, hd, Bool.not_true, Bool.true_or]
        exact ih
theorem entriesOfList_inDot :
    (entries : Entries) → (entriesOfList true entries).filter (fun e => !e.2.2) = []
  | .nil => by simp [entriesOfList]
  | .cons filename node rest => by
    have h1 := entriesOf_inDot filename node
    have h2 := entriesOfList_inDot rest
    simp only [entriesOfList, List.filter_append, h1, h2, List.append_nil]
end

mutual
theorem itemsNode_eq_visible (path : String) :
    (node : Node) → noFail (itemsNode path node) →
    itemsNode path node =
      (((entriesOf path false node).filter (fun e => !e.2.2)).map
        (fun e => Item.file e.1 e.2.1))
  | .bad e, h => absurd (by simp [itemsNode]) (h e)
  | .ok info readErr entries, h => by
    cases hd : info.isDir with
    | false => simp [itemsNode, entriesOf, hd]
    | true =>
      cases readErr with
      | some e => exact absurd (by simp [itemsNode, hd]) (h e)
      | none =>
        by_cases hdot : dotName path = true
        · have := entriesOfList_inDot entries
          simp [itemsNode, entriesOf, hd, hdot, this]
        · have hdot2 : dotName path = false := by simpa using hdot
          have h2 : noFail (itemsEntries entries) := by
            intro e he
            apply h e
            simp [itemsNode, hd, hdot2, he]
          have ih := itemsEntries_eq_visible entries h2
          simp [itemsNode, entriesOf, hd, hdot2, ih]
theorem itemsEntries_eq_visible :
    (entries : Entries) → noFail (itemsEntries entries) →
    itemsEntries entries =
      (((entriesOfList false entries).filter (fun e => !e.2.2)).map
        (fun e => Item.file e.1 e.2.1))
  | .nil, _ => by simp [itemsEntries, entriesOfList]
  | .cons filename node rest, h => by
    have h1 : noFail (itemsNode filename node) := by
      intro e he
      apply h e
      simp [itemsEntries, he]
    have h2 : noFail (itemsEntries rest) := by
      intro e he
      apply h e
      simp [itemsEntries, he]
    have i1 := itemsNode_eq_visible filename node h1
    have i2 := itemsEntries_eq_visible rest h2
    rw [itemsEntries, i1, i2]
    simp [entriesOfList]
end

theorem runItems_ok_noFail {σ : Type} (w : World) (cb : Callback σ) (l : List Item)
    (s s1 : Mem × σ) (h : runItems w cb l s = (none, s1)) : noFail l := by
  induction l generalizing s with
  | nil => intro e he; simp at he
  | cons it rest ih =>
    cases it with
    | fail e => simp [runItems] at h
    | file path info =>
      simp only [runItems] at h
      cases hv : visitFile w cb path info s with
      | mk r s2 =>
        rw [hv] at h
        cases r with
        | none =>
          intro e he
          simp only [List.mem_cons] at he
          rcases he with he | he
          · cases he
          · exact ih s2 h e he
        | some err => simp at h

theorem walkItems_eq_visible (w : World) (root : String) (h : noFail (walkItems w root)) :
    walkItems w root = (visibleFiles w root).map (fun e => Item.file e.1 e.2) := by
  unfold walkItems at h ⊢
  rw [itemsNode_eq_visible _ _ h]
  simp [visibleFiles, allFiles]

theorem bucket_cons (w : World) (start : Nat) (v : String × FileInfo)
    (vis : List (String × FileInfo)) (k : keyT) :
    bucket w start (v :: vis) k =
      if keyOf w v.1 v.2 = k then start :: bucket w (start + 1) vis k
      else bucket w (start + 1) vis k := by
  unfold bucket
  by_cases h : keyOf w v.1 v.2 = k <;> simp [List.enumFrom, List.filter_cons, h]

theorem runItems_getTree (w : World) (vis : List (String × FileInfo)) :
    ∀ (m : Mem) (files : Index) (count : Nat),
    ∃ m1 files1,
      runItems w getTreeCallback (vis.map (fun e => Item.file e.1 e.2)) (m, (files, count))
        = (none, (m1, (files1, count + vis.length))) ∧
      m1.next = m.next + vis.length ∧ m1.openCount = m.openCount ∧ m1.opens = m.opens ∧
      (∀ q, q < m.next → m1.files q = m.files q) ∧
      (∀ i (hi : i < vis.length), m1.files (m.next + i) = recordOf (vis.get ⟨i, hi⟩)) ∧
      (∀ k, files1 k =
        if bucket w m.next vis k = [] then files k
        else some ((files k).getD [] ++ bucket w m.next vis k)) := by
  induction vis with
  | nil =>
    intro m files count
    exact ⟨m, files, rfl, rfl, rfl, rfl, fun _ _ => rfl,
      fun i hi => absurd hi (Nat.not_lt_zero i), fun k => by simp [bucket]⟩
  | cons v rest ih =>
    intro m files count
    obtain ⟨m1, files1, hrun, hnext, hoc, hop, hold, hnew, hfiles⟩ :=
      ih (m.alloc (recordOf v)).2 (files.append (keyOf w v.1 v.2) m.next) (count + 1)
    refine ⟨m1, files1, ?_, ?_, ?_, ?_, ?_, ?_, ?_⟩
    · simp only [List.map_cons, runItems, visitFile, getTreeCallback, List.length_cons]
      have : count + (rest.length + 1) = count + 1 + rest.length := by omega
      rw [this]
      exact hrun
    · rw [hnext]
      simp only [Mem.alloc, Mem.write, List.length_cons]
      omega
    · rw [hoc]; rfl
    · rw [hop]; rfl
    · intro q hq
      rw [hold q (by simp only [Mem.alloc]; omega)]
      have : q ≠ m.next := by omega
      simp [Mem.alloc, Mem.write, this]
    · intro i hi
      cases i with
      | zero =>
        rw [Nat.add_zero, hold m.next (by simp only [Mem.alloc]; omega)]
        simp [Mem.alloc, Mem.write]
      | succ j =>
        have hj : j < rest.length := by
          simp only [List.length_cons] at hi
          omega
        have := hnew j hj
        simp only [Mem.alloc] at this
        have e : m.next + (j + 1) = m.next + 1 + j := by omega
        rw [e, this]
        rfl
    · intro k
      rw [hfiles k, bucket_cons]
      simp only [Mem.alloc]
      by_cases hk : keyOf w v.1 v.2 = k
      · subst hk
        by_cases hb : bucket w (m.next + 1) rest (keyOf w v.1 v.2) = []
        · simp [hb, Index.append]
        · simp [hb, Index.append]
      · have hk2 : ¬ k = keyOf w v.1 v.2 := fun e => hk e.symm
        simp [hk, hk2, Index.append]

theorem getTreeCallback_ne_SkipDir :
    ∀ (k : keyT) (v : Nat) (s : Mem × (Index × Nat)),
      (getTreeCallback k v s).1 ≠ some Err.SkipDir := by
  intro k v s
  simp [getTreeCallback]

theorem getTree_ok (w : World) (root : String) (m : Mem) (files : Index) (count : Nat)
    (m1 : Mem) (h : getTree w root m = ((files, count, none), m1)) :
    count = (visibleFiles w root).length ∧
    m1.next = m.next + (visibleFiles w root).length ∧
    m1.openCount = m.openCount ∧ m1.opens = m.opens ∧
    (∀ q, q < m.next → m1.files q = m.files q) ∧
    (∀ i (hi : i < (visibleFiles w root).length),
      m1.files (m.next + i) = recordOf ((visibleFiles w root).get ⟨i, hi⟩)) ∧
    (∀ k, files k =
      if bucket w m.next (visibleFiles w root) k = [] then none
      else some (bucket w m.next (visibleFiles w root) k)) := by
  unfold getTree at h
  simp only at h
  rw [walk_eq_runItems w getTreeCallback getTreeCallback_ne_SkipDir] at h
  cases hr : runItems w getTreeCallback (walkItems w root) (m, (fun _ => none, 0)) with
  | mk err s1 =>
    obtain ⟨m2, files2, count2⟩ := s1
    rw [hr] at h
    simp only [Prod.mk.injEq] at h
    obtain ⟨⟨hf, hc, he⟩, hm⟩ := h
    subst hf hc he hm
    have hnf := runItems_ok_noFail w getTreeCallback _ _ _ hr
    rw [walkItems_eq_visible w root hnf] at hr
    obtain ⟨m3, files3, hrun, hnext, hoc, hop, hold, hnew, hfiles⟩ :=
      runItems_getTree w (visibleFiles w root) m (fun _ => none) 0
    rw [hrun] at hr
    simp only [Prod.mk.injEq, true_and] at hr
    obtain ⟨hm, hf, hc⟩ := hr
    subst hm hf
    refine ⟨by omega, hnext, hoc, hop, hold, hnew, ?_⟩
    intro k
    rw [hfiles k]
    by_cases hb : bucket w m.next (visibleFiles w root) k = [] <;> simp [hb]

theorem bucket_mem (w : World) (vis : List (String × FileInfo)) (k : keyT) :
    ∀ (start p : Nat), p ∈ bucket w start vis k → start ≤ p ∧ p < start + vis.length := by
  induction vis with
  | nil => intro start p hp; simp [bucket] at hp
  | cons v rest ih =>
    intro start p hp
    rw [bucket_cons] at hp
    simp only [List.length_cons]
    by_cases hk : keyOf w v.1 v.2 = k
    · simp only [hk, if_true, List.mem_cons] at hp
      rcases hp with hp | hp
      · omega
      · have := ih (start + 1) p hp
        omega
    · simp only [hk, if_false] at hp
      have := ih (start + 1) p hp
      omega

theorem bucket_count (w : World) (vis : List (String × FileInfo)) (k : keyT) :
    ∀ (start i : Nat) (hi : i < vis.length),
      List.count (start + i) (bucket w start vis k)
        = if keyOf w (vis.get ⟨i, hi⟩).1 (vis.get ⟨i, hi⟩).2 = k then 1 else 0 := by
  induction vis with
  | nil => intro start i hi; exact absurd hi (Nat.not_lt_zero i)
  | cons v rest ih =>
    intro start i hi
    rw [bucket_cons]
    cases i with
    | zero =>
      have h0 : List.count start (bucket w (start + 1) rest k) = 0 := by
        apply List.count_eq_zero.mpr
        intro hmem
        have := bucket_mem w rest k (start + 1) start hmem
        omega
      by_cases hk : keyOf w v.1 v.2 = k
      · simp [hk, h0]
      · simp [hk, h0]
    | succ j =>
      have hj : j < rest.length := by
        simp only [List.length_cons] at hi
        omega
      have e : start + (j + 1) = start + 1 + j := by omega
      have hne : ¬ start = start + 1 + j := by omega
      have hne2 : (start == start + 1 + j) = false := by simpa using hne
      have := ih (start + 1) j hj
      by_cases hk : keyOf w v.1 v.2 = k
      · simp only [hk, if_true, e, List.count_cons, hne2, this]
        simp
      · simp only [hk, if_false, e, this]
        simp

/-- C6: when `getTree` walks a tree without error, the records it creates are
exactly the non-directory entries that do not lie inside a directory whose
base name begins with a dot (dot-named files included), one record per entry
in walk order, at the addresses following the old allocation pointer; the
bucket of a key holds the addresses of the records with that key (upper-cased
base name, size) in walk order; every record is in the bucket of its own key
exactly once and in no other bucket; nothing else is indexed. -/
theorem getTree_indexes_visible_files (w : World) (root : String) (m : Mem) (files : Index)
    (count : Nat) (m1 : Mem) (h : getTree w root m = ((files, count, none), m1)) :
    (∀ p i, (p, i) ∈ visibleFiles w root ↔ (p, i, false) ∈ allFiles w root) ∧
    count = (visibleFiles w root).length ∧
    (∀ i (hi : i < (visibleFiles w root).length),
      m1.files (m.next + i) = recordOf ((visibleFiles w root).get ⟨i, hi⟩)) ∧
    (∀ k, (files k).getD [] = bucket w m.next (visibleFiles w root) k) ∧
    (∀ i (hi : i < (visibleFiles w root).length) k,
      List.count (m.next + i) ((files k).getD []) =
        if keyOf w ((visibleFiles w root).get ⟨i, hi⟩).1
            ((visibleFiles w root).get ⟨i, hi⟩).2 = k then 1 else 0) ∧
    (∀ k p, p ∈ (files k).getD [] →
      m.next ≤ p ∧ p < m.next + (visibleFiles w root).length) := by
  obtain ⟨hc, _, _, _, _, hnew, hfiles⟩ := getTree_ok w root m files count m1 h
  have hb : ∀ k, (files k).getD [] = bucket w m.next (visibleFiles w root) k := by
    intro k
    rw [hfiles k]
    by_cases hb : bucket w m.next (visibleFiles w root) k = [] <;> simp [hb]
  refine ⟨?_, hc, hnew, hb, ?_, ?_⟩
  · intro p i
    simp only [visibleFiles, List.mem_map, List.mem_filter, Prod.exists]
    constructor
    · rintro ⟨a, b, c, ⟨hmem, hflag⟩, heq⟩
      simp only [Prod.mk.injEq] at heq
      obtain ⟨rfl, rfl⟩ := heq
      have : c = false := by simpa using hflag
      subst this
      exact hmem
    · intro hmem
      exact ⟨p, i, false, ⟨hmem, by simp⟩, rfl⟩
  · intro i hi k
    rw [hb k]
    exact bucket_count w (visibleFiles w root) k m.next i hi
  · intro k p hp
    rw [hb k] at hp
    exact bucket_mem w (visibleFiles w root) k m.next p hp

/-- Witness for C6 on the tree `src` of `demoWorld`: the walk succeeds with
five records; the file inside `.git` is an entry of the tree but not indexed;
the dot-named file `src/.env` is indexed; `src/A.txt` is the only record in
the bucket of (`A.TXT`, 10). -/
theorem getTree_indexes_visible_files_witness :
    getTree demoWorld "src" Mem.init
      = (((getTree demoWorld "src" Mem.init).1.1, 5, none),
          (getTree demoWorld "src" Mem.init).2) ∧
    ("src/.git/A.txt", fileInfo 10 300 0, true) ∈ allFiles demoWorld "src" ∧
    ("src/.git/A.txt", fileInfo 10 300 0) ∉ visibleFiles demoWorld "src" ∧
    ((getTree demoWorld "src" Mem.init).1.1 { Name := ".ENV", Size := 2 }).getD [] = [0] ∧
    ((getTree demoWorld "src" Mem.init).1.1 { Name := "A.TXT", Size := 10 }).getD [] = [1] ∧
    (getTree demoWorld "src" Mem.init).2.files 0 = freshFile "src/.env" 2 100 0 ∧
    (getTree demoWorld "src" Mem.init).2.files 1 = freshFile "src/A.txt" 10 100 5 := by
  have h0 : getTree demoWorld "src" Mem.init
      = (((getTree demoWorld "src" Mem.init).1.1, 5, none),
          (getTree demoWorld "src" Mem.init).2) := rfl
  have h := getTree_indexes_visible_files demoWorld "src" Mem.init _ 5 _ h0
  refine ⟨h0, by decide, by decide, ?_, ?_, ?_, ?_⟩
  · rw [h.2.2.2.1]
    decide
  · rw [h.2.2.2.1]
    decide
  · exact h.2.2.1 0 (by decide)
  · exact h.2.2.1 1 (by decide)

/-! ## Hidden roots -/

theorem walk_dot_root {σ : Type} (w : World) (root : String) (info : FileInfo)
    (entries : Entries) (hdot : dotName (resolveRoot w root) = true)
    (hdir : w.Lstat (resolveRoot w root) = .ok info none entries)
    (hisdir : info.isDir = true) (cb : Callback σ) (s : Mem × σ) :
    walk w root cb s = (none, s) := by
  have h : walk w root cb s
      = filepathWalk w (resolveRoot w root) (walkFunc w cb) s := by
    unfold walk resolveRoot
    cases w.EvalSymlinks root <;> rfl
  have hdot2 : (Base (resolveRoot w root)).data.head? = some '.' := by
    simpa [dotName] using hdot
  rw [h]
  unfold filepathWalk
  rw [hdir]
  simp [walkNode, hisdir, walkFunc, hdot2]

/-- C10, as amended: when the root, after symlink resolution, is a directory
that can be read and whose base name begins with a dot, `walk` returns no error and
leaves the state of every callback untouched (the callback is invoked for no
file), `getTree` returns the empty index with count 0 and no error, and a
scan of such a destination root compares 0 files. -/
theorem walk_prunes_dot_root (w : World) (root : String) (info : FileInfo)
    (entries : Entries) (hdot : dotName (resolveRoot w root) = true)
    (hdir : w.Lstat (resolveRoot w root) = .ok info none entries)
    (hisdir : info.isDir = true) :
    (∀ (σ : Type) (cb : Callback σ) (s : Mem × σ), walk w root cb s = (none, s)) ∧
    (∀ m, getTree w root m = ((fun _ => none, 0, none), m)) ∧
    (∀ fl srcRoot rest m,
      (mains w fl (srcRoot :: root :: rest) m).scan.dstCount = 0 ∧
      (mains w fl (srcRoot :: root :: rest) m).scan.stdout = []) := by
  have hw := fun (σ : Type) (cb : Callback σ) (s : Mem × σ) =>
    walk_dot_root w root info entries hdot hdir hisdir cb s
  refine ⟨hw, ?_, ?_⟩
  · intro m
    unfold getTree
    simp only [hw]
  · intro fl srcRoot rest m
    unfold mains
    simp only
    cases hg : getTree w srcRoot m with
    | mk r m1 =>
      obtain ⟨source, srcCount, err⟩ := r
      cases err with
      | some e => exact ⟨rfl, rfl⟩
      | none => simp [hw]

/-- C10 fails as stated: the root `.profile` is a regular file whose name
begins with a dot, and `getTree` indexes it (count 1); the root `.locked` is a
dot-named directory that cannot be read, and `getTree` returns the read
error. -/
theorem dot_root_file_or_unreadable :
    dotName (resolveRoot demoWorld ".profile") = true ∧
    (getTree demoWorld ".profile" Mem.init).1.2 = (1, none) ∧
    dotName (resolveRoot demoWorld ".locked") = true ∧
    (getTree demoWorld ".locked" Mem.init).1.2 = (0, some (Err.os "permission denied")) := by
  decide!

/-- Witness for C10 as amended: the roots `.`, `..` and `.cache` have a base name that
begins with a dot; the root `.cache` of `demoWorld` holds a file, and indexing
it gives the empty index with count 0. -/
theorem walk_prunes_dot_root_witness :
    dotName "." = true ∧ dotName ".." = true ∧ dotName "/home/u/.cache" = true ∧
    allFiles demoWorld ".cache" = [(".cache/x", fileInfo 1 1 0, true)] ∧
    (getTree demoWorld ".cache" Mem.init).1.2 = (0, none) ∧
    (mains demoWorld { flagBatch := false, flagUpdate := false } ["src", ".cache"]
      Mem.init).scan.dstCount = 0 := by
  have h := walk_prunes_dot_root demoWorld ".cache" dirInfo
    (.cons ".cache/x" (.ok (fileInfo 1 1 0) none .nil) .nil) (by decide) rfl rfl
  refine ⟨by decide, by decide, by decide, by decide, ?_, ?_⟩
  · rw [h.2.1 Mem.init]
  · exact (h.2.2 _ "src" [] Mem.init).1

/-! ## Candidates -/

theorem candidatesFor_eq_bucket (w : World) (start : Nat) (vis : List (String × FileInfo))
    (path : String) (info : FileInfo) :
    candidatesFor w start vis path info = bucket w start vis (keyOf w path info) := by
  unfold candidatesFor bucket
  congr 1
  apply List.filter_congr
  intro e _
  simp [keyOf]

theorem bucket_mem_iff (w : World) (vis : List (String × FileInfo)) (k : keyT) :
    ∀ (start p : Nat), p ∈ bucket w start vis k ↔
      ∃ i, ∃ hi : i < vis.length, p = start + i ∧
        keyOf w (vis.get ⟨i, hi⟩).1 (vis.get ⟨i, hi⟩).2 = k := by
  induction vis with
  | nil =>
    intro start p
    simp [bucket]
  | cons v rest ih =>
    intro start p
    rw [bucket_cons]
    constructor
    · intro hp
      by_cases hk : keyOf w v.1 v.2 = k
      · simp only [hk, if_true, List.mem_cons] at hp
        rcases hp with hp | hp
        · exact ⟨0, by simp, by omega, hk⟩
        · obtain ⟨i, hi, e, hkey⟩ := (ih (start + 1) p).mp hp
          exact ⟨i + 1, by simp only [List.length_cons]; omega, by omega, hkey⟩
      · simp only [hk, if_false] at hp
        obtain ⟨i, hi, e, hkey⟩ := (ih (start + 1) p).mp hp
        exact ⟨i + 1, by simp only [List.length_cons]; omega, by omega, hkey⟩
    · rintro ⟨i, hi, e, hkey⟩
      cases i with
      | zero =>
        have hk : keyOf w v.1 v.2 = k := hkey
        simp [hk, e]
      | succ j =>
        have hj : j < rest.length := by
          simp only [List.length_cons] at hi
          omega
        have hmem : p ∈ bucket w (start + 1) rest k :=
          (ih (start + 1) p).mpr ⟨j, hj, by omega, hkey⟩
        by_cases hk : keyOf w v.1 v.2 = k
        · simp [hk, hmem]
        · simp [hk, hmem]

/-! ## The scan -/

theorem fingerprint_error (w : World) (f : File) (e : Err)
    (h : fingerprint w f = .error e) : ∃ msg, e = Err.os msg := by
  unfold fingerprint at h
  cases hc : f.hash with
  | some d => simp [hc] at h
  | none =>
    cases ho : w.osOpen f.Path with
    | error msg =>
      simp only [hc, ho] at h
      injection h with h
      exact ⟨msg, h.symm⟩
    | ok fd => simp [hc, ho] at h

theorem firstMatch_error (w : World) (m : Mem) (dstFile : Nat) (l : List Nat) (e : Err)
    (h : firstMatch w m dstFile l = .error e) : ∃ msg, e = Err.os msg := by
  induction l with
  | nil => simp [firstMatch] at h
  | cons p rest ih =>
    unfold firstMatch at h
    by_cases hs : File.Sametime (m.files p) (m.files dstFile) = true
    · simp only [hs, if_true] at h
      exact ih h
    · simp only [hs, if_false] at h
      cases hp : fingerprint w (m.files p) with
      | error e1 =>
        simp only [hp] at h
        injection h with h
        subst h
        exact fingerprint_error w _ _ hp
      | ok h1 =>
        cases hd : fingerprint w (m.files dstFile) with
        | error e1 =>
          simp only [hp, hd] at h
          injection h with h
          subst h
          exact fingerprint_error w _ _ hd
        | ok h2 =>
          simp only [hp, hd] at h
          by_cases hh : h1 = h2
          · simp [hh] at h
          · simp only [hh, if_false] at h
            exact ih h

theorem scanCallback_ne_SkipDir (w : World) (fl : Flags) (source : Index) :
    ∀ (k : keyT) (v : Nat) (s : Mem × Scan),
      (scanCallback w fl source k v s).1 ≠ some Err.SkipDir := by
  intro k v s
  unfold scanCallback
  cases hk : source k with
  | none => simp
  | some srcFiles =>
    have hspec := (findSame_spec w srcFiles v s.1).1
    dsimp only
    cases hr : findSameFileButTimeDiff w srcFiles v s.1 with
    | mk r m1 =>
      rw [hr] at hspec
      cases r with
      | error e =>
        obtain ⟨msg, he⟩ := firstMatch_error w s.1 v srcFiles e hspec.symm
        subst he
        simp
      | ok o =>
        cases o with
        | none => simp
        | some p =>
          simp only
          split <;> (try split) <;> simp

theorem scanCallback_dstCount (w : World) (fl : Flags) (source : Index)
    (k : keyT) (v : Nat) (s : Mem × Scan) :
    (scanCallback w fl source k v s).2.2.dstCount = s.2.dstCount + 1 := by
  unfold scanCallback
  cases hk : source k with
  | none => rfl
  | some srcFiles =>
    dsimp only
    cases hr : findSameFileButTimeDiff w srcFiles v s.1 with
    | mk r m1 =>
      cases r with
      | error e => rfl
      | ok o =>
        cases o with
        | none => rfl
        | some p =>
          simp only
          split <;> (try split) <;> rfl

theorem runItems_dstCount (w : World) (fl : Flags) (source : Index) (l : List Item)
    (s s1 : Mem × Scan) (h : runItems w (scanCallback w fl source) l s = (none, s1)) :
    s1.2.dstCount = s.2.dstCount + l.length := by
  induction l generalizing s with
  | nil =>
    simp only [runItems, Prod.mk.injEq, true_and] at h
    subst h
    rfl
  | cons it rest ih =>
    cases it with
    | fail e => simp [runItems] at h
    | file path info =>
      simp only [runItems] at h
      have hd : (visitFile w (scanCallback w fl source) path info s).2.2.dstCount
          = s.2.dstCount + 1 := scanCallback_dstCount w fl source _ _ _
      cases hv : visitFile w (scanCallback w fl source) path info s with
      | mk r s2 =>
        rw [hv] at h hd
        cases r with
        | none =>
          have := ih s2 h
          simp only [List.length_cons]
          simp only at hd
          omega
        | some err => simp at h

theorem mains_eq (w : World) (fl : Flags) (srcRoot dstRoot : String) (rest : List String)
    (m : Mem) (source : Index) (srcCount : Nat) (m1 : Mem)
    (h : getTree w srcRoot m = ((source, srcCount, none), m1)) :
    (mains w fl (srcRoot :: dstRoot :: rest) m).err
      = (runItems w (scanCallback w fl source) (walkItems w dstRoot) (m1, scan0)).1 ∧
    (mains w fl (srcRoot :: dstRoot :: rest) m).mem
      = (runItems w (scanCallback w fl source) (walkItems w dstRoot) (m1, scan0)).2.1 ∧
    (mains w fl (srcRoot :: dstRoot :: rest) m).scan
      = (runItems w (scanCallback w fl source) (walkItems w dstRoot) (m1, scan0)).2.2 := by
  unfold mains
  simp only [h]
  rw [walk_eq_runItems w _ (scanCallback_ne_SkipDir w fl source)]
  exact ⟨rfl, rfl, rfl⟩

/-- C9: for the index `source` built by `getTree` and every destination entry
`(path, info)`, the index holds under the entry's key exactly the addresses
of the indexed source files whose upper-cased base name and size are the
entry's, in source walk order; when there is such a file the scan callback
calls `findSameFileButTimeDiff` on exactly these candidates with the new
destination record as target, returns its error, and reports its match;
when there is none the key is absent and the callback calls no matcher,
returns no error, reports nothing and opens no file: it only counts the
entry as compared. -/
theorem scan_candidates (w : World) (fl : Flags) (srcRoot : String) (m : Mem)
    (source : Index) (srcCount : Nat) (m1 : Mem)
    (h : getTree w srcRoot m = ((source, srcCount, none), m1))
    (path : String) (info : FileInfo) :
    (∀ a, a ∈ candidatesFor w m.next (visibleFiles w srcRoot) path info ↔
      ∃ i, ∃ hi : i < (visibleFiles w srcRoot).length, a = m.next + i ∧
        m1.files a = recordOf ((visibleFiles w srcRoot).get ⟨i, hi⟩) ∧
        w.ToUpper (Base ((visibleFiles w srcRoot).get ⟨i, hi⟩).1) = w.ToUpper (Base path) ∧
        ((visibleFiles w srcRoot).get ⟨i, hi⟩).2.size = info.size) ∧
    (candidatesFor w m.next (visibleFiles w srcRoot) path info ≠ [] →
      source (keyOf w path info)
        = some (candidatesFor w m.next (visibleFiles w srcRoot) path info) ∧
      ∀ s, visitFile w (scanCallback w fl source) path info s =
        match findSameFileButTimeDiff w
            (candidatesFor w m.next (visibleFiles w srcRoot) path info) s.1.next
            (s.1.alloc { Path := path, info := info, hash := none }).2 with
        | (.error e, m2) => (some e, (m2, counted s.2))
        | (.ok none, m2) => (none, (m2, counted s.2))
        | (.ok (some p), m2) =>
          (none, (m2, reportRepair fl (m2.files p) (m2.files s.1.next) (counted s.2)))) ∧
    (candidatesFor w m.next (visibleFiles w srcRoot) path info = [] →
      source (keyOf w path info) = none ∧
      ∀ s, visitFile w (scanCallback w fl source) path info s =
        (none, ((s.1.alloc (recordOf (path, info))).2,
          { s.2 with dstCount := s.2.dstCount + 1 })) ∧
        (visitFile w (scanCallback w fl source) path info s).2.1.opens = s.1.opens ∧
        (visitFile w (scanCallback w fl source) path info s).2.1.openCount
          = s.1.openCount) := by
  obtain ⟨_, _, _, _, _, hnew, hfiles⟩ := getTree_ok w srcRoot m source srcCount m1 h
  have hsrc := hfiles (keyOf w path info)
  rw [← candidatesFor_eq_bucket] at hsrc
  refine ⟨?_, ?_, ?_⟩
  · intro a
    rw [candidatesFor_eq_bucket, bucket_mem_iff]
    constructor
    · rintro ⟨i, hi, e, hkey⟩
      refine ⟨i, hi, e, by rw [e]; exact hnew i hi, ?_⟩
      simpa [keyOf] using hkey
    · rintro ⟨i, hi, e, _, h1, h2⟩
      exact ⟨i, hi, e, by unfold keyOf; rw [h1, h2]⟩
  · intro hne
    rw [if_neg hne] at hsrc
    refine ⟨hsrc, fun s => ?_⟩
    unfold visitFile scanCallback
    simp only [hsrc]
    cases hr : findSameFileButTimeDiff w
        (candidatesFor w m.next (visibleFiles w srcRoot) path info) s.1.next
        (s.1.alloc { Path := path, info := info, hash := none }).2 with
    | mk res m2 =>
      cases res with
      | error e => rfl
      | ok o =>
        cases o with
        | none => rfl
        | some p =>
          cases hb : fl.flagBatch <;> cases hu : fl.flagUpdate <;>
            simp [reportRepair, counted, hb, hu]
  · intro hnil
    rw [if_pos hnil] at hsrc
    refine ⟨hsrc, fun s => ?_⟩
    unfold visitFile scanCallback
    simp only [hsrc]
    exact ⟨rfl, rfl, rfl⟩

/-- Witness for C9 on `demoWorld`: the source index of `src` gives for the
destination file `dst/a.txt` (10 bytes) the one candidate `src/A.txt`
(address 1), not `src/d.txt` of the same size; the matcher called on it
returns it and the callback repairs `dst/a.txt`; for `dst/z.txt` there is no
candidate. -/
theorem scan_candidates_witness :
    getTree demoWorld "src" Mem.init = ((demoSource, 5, none), demoIndexed) ∧
    candidatesFor demoWorld 0 (visibleFiles demoWorld "src") "dst/a.txt" (fileInfo 10 200 5)
      = [1] ∧
    demoIndexed.files 1 = freshFile "src/A.txt" 10 100 5 ∧
    demoSource (keyOf demoWorld "dst/a.txt" (fileInfo 10 200 5)) = some [1] ∧
    (findSameFileButTimeDiff demoWorld [1] demoIndexed.next
      (demoIndexed.alloc { Path := "dst/a.txt", info := fileInfo 10 200 5, hash := none }).2).1
      = .ok (some 1) ∧
    (visitFile demoWorld (scanCallback demoWorld updateFlags demoSource) "dst/a.txt"
      (fileInfo 10 200 5) (demoIndexed, scan0)).2.2.chtimes
      = [("dst/a.txt", { sec := 100, nsec := 5 }, { sec := 100, nsec := 5 })] ∧
    demoSource (keyOf demoWorld "dst/z.txt" (fileInfo 1 200 0)) = none := by
  have h0 : getTree demoWorld "src" Mem.init = ((demoSource, 5, none), demoIndexed) := rfl
  have ha := scan_candidates demoWorld updateFlags "src" Mem.init demoSource 5 demoIndexed h0
    "dst/a.txt" (fileInfo 10 200 5)
  have hz := scan_candidates demoWorld updateFlags "src" Mem.init demoSource 5 demoIndexed h0
    "dst/z.txt" (fileInfo 1 200 0)
  have hc : candidatesFor demoWorld Mem.init.next (visibleFiles demoWorld "src") "dst/a.txt"
      (fileInfo 10 200 5) = [1] := by decide
  refine ⟨h0, hc, by decide, ?_, by decide!, by decide!, ?_⟩
  · have := (ha.2.1 (by rw [hc]; exact List.cons_ne_nil _ _)).1
    rw [hc] at this
    exact this
  · exact (hz.2.2 (by decide)).1

/-- C8: when, in the scan of `mains`, the destination walk reaches a file
after the items `pre` were processed without error, and the matcher returns
an error for that file, then `mains` returns that error and the process exits
with status 1; the final heap is the one the failing matcher call left, the
output, the calls of `os.Chtimes` and the touched counter are those reached
before the file, and the compared counter has counted the items of `pre` and
this file only, whatever items `post` follow in traversal order. -/
theorem mains_stops_at_matcher_error (w : World) (fl : Flags) (srcRoot dstRoot : String)
    (rest : List String) (m : Mem) (source : Index) (srcCount : Nat) (m1 : Mem)
    (hsrc : getTree w srcRoot m = ((source, srcCount, none), m1))
    (pre post : List Item) (path : String) (info : FileInfo)
    (hitems : walkItems w dstRoot = pre ++ Item.file path info :: post)
    (s1 : Mem × Scan)
    (hpre : runItems w (scanCallback w fl source) pre (m1, scan0) = (none, s1))
    (srcFiles : List Nat) (hcand : source (keyOf w path info) = some srcFiles)
    (e : Err) (m2 : Mem)
    (hfail : findSameFileButTimeDiff w srcFiles s1.1.next
      (s1.1.alloc { Path := path, info := info, hash := none }).2 = (.error e, m2)) :
    (mains w fl (srcRoot :: dstRoot :: rest) m).err = some e ∧
    (main w fl (srcRoot :: dstRoot :: rest) m).1 = 1 ∧
    (mains w fl (srcRoot :: dstRoot :: rest) m).mem = m2 ∧
    (mains w fl (srcRoot :: dstRoot :: rest) m).scan.stdout = s1.2.stdout ∧
    (mains w fl (srcRoot :: dstRoot :: rest) m).scan.chtimes = s1.2.chtimes ∧
    (mains w fl (srcRoot :: dstRoot :: rest) m).scan.updCount = s1.2.updCount ∧
    (mains w fl (srcRoot :: dstRoot :: rest) m).scan.dstCount = pre.length + 1 := by
  obtain ⟨he, hm, hs⟩ := mains_eq w fl srcRoot dstRoot rest m source srcCount m1 hsrc
  have hcount := runItems_dstCount w fl source pre (m1, scan0) s1 hpre
  have hv : visitFile w (scanCallback w fl source) path info s1
      = (some e, (m2, { s1.2 with dstCount := s1.2.dstCount + 1 })) := by
    unfold visitFile scanCallback
    simp only [hcand]
    rw [hfail]
  have hrun : runItems w (scanCallback w fl source) (walkItems w dstRoot) (m1, scan0)
      = (some e, (m2, { s1.2 with dstCount := s1.2.dstCount + 1 })) := by
    rw [hitems, runItems_append, hpre]
    simp only [runItems, hv]
  rw [hrun] at he hm hs
  refine ⟨he, ?_, hm, by rw [hs], by rw [hs], by rw [hs], ?_⟩
  · unfold main
    simp only [he]
  · rw [hs]
    simp only [hcount, scan0]
    omega

theorem eq_none_pair {α : Type} (x : Option Err × α) (h : x.1 = none) : x = (none, x.2) := by
  obtain ⟨a, b⟩ := x
  simp only at h
  subst h
  rfl

theorem eq_error_pair {α β : Type} (x : Except Err β × α) (e : Err) (h : x.1 = .error e) :
    x = (.error e, x.2) := by
  obtain ⟨a, b⟩ := x
  simp only at h
  subst h
  rfl

/-- Witness for C8 on `demoWorld`, source `src`, destination `dst2`: after
`dst2/a.txt` is matched and repaired, the matcher fails for `dst2/b.txt`
because `src/b.txt` cannot be opened; `mains` returns that error, the exit
status is 1, two files were compared, and `dst2/z.txt` is not processed. -/
theorem mains_stops_at_matcher_error_witness :
    walkItems demoWorld "dst2" =
      [Item.file "dst2/a.txt" (fileInfo 10 200 5)] ++
        Item.file "dst2/b.txt" (fileInfo 4 200 0) ::
        [Item.file "dst2/z.txt" (fileInfo 1 200 0)] ∧
    demoSource (keyOf demoWorld "dst2/b.txt" (fileInfo 4 200 0)) = some [2] ∧
    (mains demoWorld updateFlags ["src", "dst2"] Mem.init).err = some (Err.os "open failed") ∧
    (main demoWorld updateFlags ["src", "dst2"] Mem.init).1 = 1 ∧
    (mains demoWorld updateFlags ["src", "dst2"] Mem.init).scan.dstCount = 2 ∧
    (mains demoWorld updateFlags ["src", "dst2"] Mem.init).scan.chtimes
      = [("dst2/a.txt", { sec := 100, nsec := 5 }, { sec := 100, nsec := 5 })] := by
  have hsrc : getTree demoWorld "src" Mem.init = ((demoSource, 5, none), demoIndexed) := rfl
  have hitems : walkItems demoWorld "dst2" =
      [Item.file "dst2/a.txt" (fileInfo 10 200 5)] ++
        Item.file "dst2/b.txt" (fileInfo 4 200 0) ::
        [Item.file "dst2/z.txt" (fileInfo 1 200 0)] := by decide!
  have hpre : runItems demoWorld (scanCallback demoWorld updateFlags demoSource)
      [Item.file "dst2/a.txt" (fileInfo 10 200 5)] (demoIndexed, scan0)
        = (none, demoBefore) := eq_none_pair _ (by decide!)
  have hcand : demoSource (keyOf demoWorld "dst2/b.txt" (fileInfo 4 200 0)) = some [2] := by
    decide!
  have hfail : findSameFileButTimeDiff demoWorld [2] demoBefore.1.next
      (demoBefore.1.alloc { Path := "dst2/b.txt", info := fileInfo 4 200 0, hash := none }).2
        = (.error (Err.os "open failed"), demoFailed) := eq_error_pair _ _ (by decide!)
  have h := mains_stops_at_matcher_error demoWorld updateFlags "src" "dst2" [] Mem.init
    demoSource 5 demoIndexed hsrc _ _ "dst2/b.txt" (fileInfo 4 200 0) hitems demoBefore hpre
    [2] hcand (Err.os "open failed") demoFailed hfail
  refine ⟨hitems, hcand, h.1, h.2.1, h.2.2.2.2.2.2, ?_⟩
  rw [h.2.2.2.2.1]
  decide!

theorem findSame_keeps_target (w : World) (srcFiles : List Nat) (m : Mem) (f : File) :
    ((findSameFileButTimeDiff w srcFiles m.next (m.alloc f).2).2.files m.next).info = f.info ∧
    ((findSameFileButTimeDiff w srcFiles m.next (m.alloc f).2).2.files m.next).Path = f.Path := by
  have h := ((findSame_spec w srcFiles m.next (m.alloc f).2).2).2 m.next
  have h0 : (m.alloc f).2.files m.next = f := by simp [Mem.alloc, Mem.write]
  rw [h0] at h
  exact ⟨h.1, h.2.1⟩

theorem runItems_matchLog (w : World) (fl : Flags) (source : Index) (cb : Callback Scan)
    (hstep : ∀ path info s, visitFile w cb path info s = scanStep w fl source path info s)
    (hu : fl.flagUpdate = true) (hb : fl.flagBatch = false) (items : List Item) :
    ∀ (m : Mem) (r : Scan),
      (runItems w cb items (m, r)).2.2.stdout
        = r.stdout ++ reportLines (matchLog w source items m) ∧
      (runItems w cb items (m, r)).2.2.chtimes
        = r.chtimes ++ (matchLog w source items m).map repairOf ∧
      (runItems w cb items (m, r)).2.2.updCount
        = r.updCount + (matchLog w source items m).length := by
  induction items with
  | nil => intro m r; simp [runItems, matchLog, reportLines]
  | cons it rest ih =>
    intro m r
    cases it with
    | fail e => simp [runItems, matchLog, reportLines]
    | file path info =>
      simp only [runItems, matchLog, hstep, scanStep]
      cases hk : source (keyOf w path info) with
      | none =>
        dsimp only
        have := ih (m.alloc { Path := path, info := info, hash := none }).2 (counted r)
        simpa [counted] using this
      | some srcFiles =>
        dsimp only
        have hkeep := findSame_keeps_target w srcFiles m
          { Path := path, info := info, hash := none }
        cases hr : findSameFileButTimeDiff w srcFiles m.next
            (m.alloc { Path := path, info := info, hash := none }).2 with
        | mk res m1 =>
          rw [hr] at hkeep
          cases res with
          | error e => simp [counted, reportLines]
          | ok o =>
            cases o with
            | none =>
              dsimp only
              have := ih m1 (counted r)
              simpa [counted] using this
            | some p =>
              dsimp only
              have := ih m1 (reportRepair fl (m1.files p) (m1.files m.next) (counted r))
              simp only at hkeep
              simp only [reportRepair, counted, hu, hb, Bool.false_eq_true, if_false, if_true,
                hkeep.1, hkeep.2] at this ⊢
              obtain ⟨h1, h2, h3⟩ := this
              refine ⟨?_, ?_, ?_⟩
              · rw [h1]; simp [reportLines]
              · rw [h2]; simp [repairOf]
              · rw [h3]; simp only [List.length_cons]; omega

theorem mains_matchLog (w : World) (fl : Flags) (args : List String) (m : Mem)
    (hstep : ∀ source path info s,
      visitFile w (scanCallback w fl source) path info s = scanStep w fl source path info s)
    (hu : fl.flagUpdate = true) (hb : fl.flagBatch = false) :
    (mains w fl args m).scan.stdout = reportLines (scanMatches w args m) ∧
    (mains w fl args m).scan.chtimes = (scanMatches w args m).map repairOf ∧
    (mains w fl args m).scan.updCount = (scanMatches w args m).length := by
  cases args with
  | nil => exact ⟨rfl, rfl, rfl⟩
  | cons srcRoot t =>
    cases t with
    | nil => exact ⟨rfl, rfl, rfl⟩
    | cons dstRoot rest =>
      cases hg : getTree w srcRoot m with
      | mk res m1 =>
        obtain ⟨source, srcCount, err⟩ := res
        cases err with
        | some e =>
          unfold mains scanMatches
          simp only [hg]
          exact ⟨rfl, rfl, rfl⟩
        | none =>
          obtain ⟨_, _, hs⟩ := mains_eq w fl srcRoot dstRoot rest m source srcCount m1 hg
          have h := runItems_matchLog w fl source (scanCallback w fl source) (hstep source)
            hu hb (walkItems w dstRoot) m1 scan0
          have hm : scanMatches w (srcRoot :: dstRoot :: rest) m
              = matchLog w source (walkItems w dstRoot) m1 := by
            unfold scanMatches
            simp only [hg]
          rw [hs, hm]
          simpa [scan0] using h

theorem matchLog_paths_sublist (w : World) (source : Index) (items : List Item) :
    ∀ m : Mem, ((matchLog w source items m).map (fun r => r.2.2.2)).Sublist (itemPaths items) := by
  induction items with
  | nil => intro m; simp [matchLog, itemPaths]
  | cons it rest ih =>
    intro m
    cases it with
    | fail e => simp [matchLog]
    | file path info =>
      simp only [matchLog, itemPaths]
      cases hk : source (keyOf w path info) with
      | none => exact List.Sublist.cons _ (ih _)
      | some srcFiles =>
        dsimp only
        cases hr : findSameFileButTimeDiff w srcFiles m.next
            (m.alloc { Path := path, info := info, hash := none }).2 with
        | mk res m1 =>
          cases res with
          | error e => simp
          | ok o =>
            cases o with
            | none => exact List.Sublist.cons _ (ih _)
            | some p =>
              simp only [List.map_cons]
              exact List.Sublist.cons₂ _ (ih _)

theorem scanMatches_paths_sublist (w : World) (args : List String) (m : Mem) :
    ((scanMatches w args m).map (fun r => r.2.2.2)).Sublist (dstPaths w args) := by
  cases args with
  | nil => simp [scanMatches, dstPaths]
  | cons srcRoot t =>
    cases t with
    | nil => simp [scanMatches, dstPaths]
    | cons dstRoot rest =>
      cases hg : getTree w srcRoot m with
      | mk res m1 =>
        obtain ⟨source, srcCount, err⟩ := res
        cases err with
        | some e => simp [scanMatches, dstPaths, hg]
        | none =>
          have hm : scanMatches w (srcRoot :: dstRoot :: rest) m
              = matchLog w source (walkItems w dstRoot) m1 := by
            unfold scanMatches
            simp only [hg]
          rw [hm]
          exact matchLog_paths_sublist w source (walkItems w dstRoot) m1

theorem diskTimes_none (w : World) (calls : List (String × Time × Time)) (path : String)
    (h : path ∉ calls.map Prod.fst) : diskTimes w calls path = none := by
  induction calls with
  | nil => rfl
  | cons c rest ih =>
    simp only [List.map_cons, List.mem_cons, not_or] at h
    have hne : ¬ c.1 = path := fun e => h.1 e.symm
    simp [diskTimes, ih h.2, hne]

theorem diskTimes_nodup (w : World) (calls : List (String × Time × Time))
    (hnd : (calls.map Prod.fst).Nodup) (c : String × Time × Time) (hc : c ∈ calls)
    (hok : w.osChtimes c.1 c.2.1 c.2.2 = none) :
    diskTimes w calls c.1 = some (c.2.1, c.2.2) := by
  induction calls with
  | nil => simp at hc
  | cons d rest ih =>
    simp only [List.map_cons, List.nodup_cons] at hnd
    rcases List.mem_cons.mp hc with e | e
    · subst e
      simp [diskTimes, diskTimes_none w rest c.1 hnd.1, hok]
    · simp [diskTimes, ih hnd.2 e]

/-- C7, as amended: in every run of `mains` with `-update` set and `-batch`
not set, standard output reports exactly the matches the matcher finds in
the scan; when no two destination files share a path, every destination file
for which a match is reported and for which the call of `os.Chtimes`
succeeds has, after the run, access and modification time equal to the
matched source file's modification time; and when the call succeeds for
every reported match, the touched counter is the number of reported matches,
each of them so repaired. -/
theorem mains_update_repairs_matches (w : World) (fl : Flags) (args : List String) (m : Mem)
    (hu : fl.flagUpdate = true) (hb : fl.flagBatch = false) :
    (mains w fl args m).scan.stdout = reportLines (scanMatches w args m) ∧
    ((dstPaths w args).Nodup →
      ∀ r ∈ scanMatches w args m, w.osChtimes r.2.2.2 r.1 r.1 = none →
        diskTimes w (mains w fl args m).scan.chtimes r.2.2.2 = some (r.1, r.1)) ∧
    ((∀ r ∈ scanMatches w args m, w.osChtimes r.2.2.2 r.1 r.1 = none) →
      (mains w fl args m).scan.updCount = (scanMatches w args m).length) := by
  have hstep : ∀ source path info s,
      visitFile w (scanCallback w fl source) path info s
        = scanStep w fl source path info s := by
    intro source path info s
    unfold visitFile scanCallback scanStep
    cases hk : source (keyOf w path info) with
    | none => rfl
    | some srcFiles =>
      dsimp only
      cases hr : findSameFileButTimeDiff w srcFiles s.1.next
          (s.1.alloc { Path := path, info := info, hash := none }).2 with
      | mk res m1 =>
        cases res with
        | error e => rfl
        | ok o =>
          cases o with
          | none => rfl
          | some p =>
            simp only [reportRepair, counted, hb, hu, Bool.false_eq_true, if_false, if_true,
              List.append_assoc, List.singleton_append]
            rfl
  obtain ⟨h1, h2, h3⟩ := mains_matchLog w fl args m hstep hu hb
  refine ⟨h1, ?_, fun _ => h3⟩
  intro hnd r hr hok
  rw [h2]
  have hpaths : ((scanMatches w args m).map repairOf).map Prod.fst
      = (scanMatches w args m).map (fun r => r.2.2.2) := by
    simp [repairOf]
  have hnd2 : (((scanMatches w args m).map repairOf).map Prod.fst).Nodup := by
    rw [hpaths]
    exact List.Nodup.sublist (scanMatches_paths_sublist w args m) hnd
  exact diskTimes_nodup w _ hnd2 (repairOf r) (List.mem_map_of_mem repairOf hr) hok

/-- Witness for C7 as amended, on `demoWorld` with `-update`: the one match
found, of `dst/a.txt` with `src/A.txt`, is reported, the file has the source
time after the run, and the touched counter is 1. -/
theorem mains_update_repairs_matches_witness :
    updateFlags.flagUpdate = true ∧ updateFlags.flagBatch = false ∧
    (dstPaths demoWorld ["src", "dst"]).Nodup ∧
    scanMatches demoWorld ["src", "dst"] Mem.init
      = [({ sec := 100, nsec := 5 }, "src/A.txt", { sec := 200, nsec := 5 }, "dst/a.txt")] ∧
    (mains demoWorld updateFlags ["src", "dst"] Mem.init).scan.chtimes
      = [("dst/a.txt", { sec := 100, nsec := 5 }, { sec := 100, nsec := 5 })] ∧
    diskTimes demoWorld (mains demoWorld updateFlags ["src", "dst"] Mem.init).scan.chtimes
      "dst/a.txt" = some ({ sec := 100, nsec := 5 }, { sec := 100, nsec := 5 }) ∧
    (mains demoWorld updateFlags ["src", "dst"] Mem.init).scan.updCount = 1 := by
  have hm : scanMatches demoWorld ["src", "dst"] Mem.init
      = [({ sec := 100, nsec := 5 }, "src/A.txt", { sec := 200, nsec := 5 }, "dst/a.txt")] := by
    decide!
  have hnd : (dstPaths demoWorld ["src", "dst"]).Nodup := by decide!
  have h := mains_update_repairs_matches demoWorld updateFlags ["src", "dst"] Mem.init rfl rfl
  have hmem : (({ sec := 100, nsec := 5 }, "src/A.txt", { sec := 200, nsec := 5 },
      "dst/a.txt") : Report) ∈ scanMatches demoWorld ["src", "dst"] Mem.init := by
    rw [hm]
    exact List.mem_singleton.mpr rfl
  have h1 := h.2.1 hnd _ hmem rfl
  have h2 := h.2.2 (fun r _ => rfl)
  rw [hm] at h2
  exact ⟨rfl, rfl, hnd, hm, by decide!, h1, h2⟩

/-- C7 fails as stated: with `-update` and `-batch` both set, the match of
`dst/a.txt` with `src/A.txt` is reported (as a `touch -r` line), `mains`
returns no error, but `os.Chtimes` is never called, so `dst/a.txt` keeps its
times, and the touched counter stays 0. -/
theorem mains_batch_update_touches_nothing :
    batchUpdateFlags.flagUpdate = true ∧
    (mains demoWorld batchUpdateFlags ["src", "dst"] Mem.init).err = none ∧
    (mains demoWorld batchUpdateFlags ["src", "dst"] Mem.init).scan.stdout
      = [Event.touchLine "src/A.txt" "dst/a.txt"] ∧
    (mains demoWorld batchUpdateFlags ["src", "dst"] Mem.init).scan.chtimes = [] ∧
    diskTimes demoWorld (mains demoWorld batchUpdateFlags ["src", "dst"] Mem.init).scan.chtimes
      "dst/a.txt" = none ∧
    (mains demoWorld batchUpdateFlags ["src", "dst"] Mem.init).scan.updCount = 0 := by
  decide!

end Syncstamp
